import Mathlib

/-!
Verification of the screenshot-splitter analysis pipeline.

The TypeScript sources are shallowly embedded: JS numbers are modelled as `ℚ`
(integer counters as `ℕ`/`ℤ`), `Math.round` as `jsRound`, and the pixel grid
sampled from the canvas as an explicit `Img` structure.  External browser/JS
primitives that the code calls are passed in as explicit parameters:
`Date.now()` becomes a `now : ℕ` argument, `Math.random() * 1000` a
`rnd : ℕ → ℚ` argument, canvas `drawImage` downsampling a `ds` argument and
`getCropDataUrl` a `crop` argument, `JSON.parse` a `jsonParse` argument.
-/

namespace Screenshot

/-- One RGBA pixel as read from canvas `ImageData` (byte values 0–255). -/
structure Pixel where
  r : ℕ
  g : ℕ
  b : ℕ
  a : ℕ
deriving DecidableEq, Repr

/-- The pixel grid sampled from the source image; `pix x y` is the pixel in
column `x` of row `y`. -/
structure Img where
  width : ℕ
  height : ℕ
  pix : ℕ → ℕ → Pixel

/-- `Math.round`: round half away from zero toward `+∞` (JS semantics). -/
def jsRound (q : ℚ) : ℤ := ⌊q + 1/2⌋

/-- Normalized bounding box (`types.ts`), coordinates in the 0–1000 space. -/
structure Box where
  ymin : ℚ
  xmin : ℚ
  ymax : ℚ
  xmax : ℚ
deriving DecidableEq, Repr

/-- The `source` discriminator of `SplitBlock` (`types.ts`). -/
inductive Source
  | pixel
  | ai
  | refined
  | invalid
  | separator
deriving DecidableEq, Repr

/-- `SplitBlock` (`types.ts`): one segment of the decomposition. -/
structure SplitBlock where
  id : String
  label : String
  box : Box
  dataUrl : Option String := none
  source : Source
deriving DecidableEq, Repr

/-- `getFuzzyColorKey` (imageProcessing.ts): quantize each channel by integer
division by the bucket size 8 and re-multiplying; the source renders the
triple as the string `"br,bg,bb"`, which identifies exactly this triple. -/
def getFuzzyColorKey (r g b : ℕ) : ℕ × ℕ × ℕ :=
  (r / 8 * 8, g / 8 * 8, b / 8 * 8)

/-- `separatorThreshold = Math.max(0.90, invalidThreshold - 0.05)`. -/
def separatorThreshold (invalidThreshold : ℚ) : ℚ :=
  max (9/10) (invalidThreshold - 1/20)

/-- The fuzzy color keys of all pixels of row `y`, in column order. -/
def rowKeys (img : Img) (y : ℕ) : List (ℕ × ℕ × ℕ) :=
  (List.range img.width).map fun x =>
    let p := img.pix x y
    getFuzzyColorKey p.r p.g p.b

/-- The running maximum `maxCount` of the per-key occurrence counters: the
largest multiplicity occurring in the list. -/
def maxCount (l : List (ℕ × ℕ × ℕ)) : ℕ :=
  (l.map fun k => l.count k).foldr max 0

/-- Row classification of `detectPixelBlocks`: a row is a separator iff
`maxCount / width >= separatorThreshold`. -/
def isSeparatorRow (img : Img) (invalidThreshold : ℚ) (y : ℕ) : Bool :=
  decide ((maxCount (rowKeys img y) : ℚ) / img.width ≥ separatorThreshold invalidThreshold)

/-- One run of consecutive rows `[start, stop)` sharing a classification. -/
structure Run where
  start : ℕ
  stop : ℕ
  isSep : Bool
deriving DecidableEq, Repr

/-- The aggregation loop of `detectPixelBlocks` (`for (let y = 1; y <= height ...)`):
scanning from row `y` with a run open since `startY` classified `inSep`,
emit the run on a classification change, and emit the open run at `y = height`.
The explicit `fuel` only forces structural termination; the loop maintains
`h ≤ fuel + y`, so the `fuel = 0` guard is never reached. -/
def runsGo (f : ℕ → Bool) (h : ℕ) : ℕ → ℕ → ℕ → Bool → List Run
  | 0, startY, _, inSep => [⟨startY, h, inSep⟩]
  | fuel + 1, startY, y, inSep =>
    if h ≤ y then [⟨startY, h, inSep⟩]
    else if f y ≠ inSep then ⟨startY, y, inSep⟩ :: runsGo f h fuel y (y + 1) (f y)
    else runsGo f h fuel startY (y + 1) inSep

/-- Run-length encoding of the row classifications of an image of height `h`. -/
def runs (f : ℕ → Bool) (h : ℕ) : List Run :=
  if h = 0 then [] else runsGo f h h 0 1 (f 0)

/-- The box built for a run `[s, e)` of an image of height `h`:
`{ymin: (s/h)*1000, xmin: 0, ymax: (e/h)*1000, xmax: 1000}` (no rounding). -/
def mkRunBox (h s e : ℕ) : Box :=
  ⟨(s : ℚ) / h * 1000, 0, (e : ℚ) / h * 1000, 1000⟩

/-- `isBlockValid` (imageProcessing.ts, part lacking the CCA classifier):
sample the block rows `[y1, y2)` with stride `step` (1 below 50 rows, else 2),
count fuzzy color keys and accept iff `maxCount / totalSamples < threshold`. -/
def isBlockValid (img : Img) (y1 y2 : ℕ) (threshold : ℚ) : Bool :=
  let blockHeight := y2 - y1
  let step := if blockHeight < 50 then 1 else 2
  let ys := List.range' y1 ((blockHeight + step - 1) / step) step
  let xs := List.range' 0 ((img.width + step - 1) / step) step
  let keys := ys.flatMap fun y => xs.map fun x =>
    let p := img.pix x y
    getFuzzyColorKey p.r p.g p.b
  decide ((maxCount keys : ℚ) / keys.length < threshold)

/-- The pixels of the block rows `[y1, y2)` in the row-major order of the
flat `ImageData` array. -/
def blockPixels (img : Img) (y1 y2 : ℕ) : List Pixel :=
  (List.range' y1 (y2 - y1)).flatMap fun y =>
    (List.range img.width).map fun x => img.pix x y

/-- `calculateVariance`: population variance of a list of grayscale values. -/
def calculateVariance (arr : List ℤ) : ℚ :=
  if arr.length = 0 then 0
  else
    let len : ℚ := arr.length
    let qs : List ℚ := arr.map fun v => Int.cast v
    let mean : ℚ := qs.foldl (· + ·) 0 / len
    let squareDiffs := qs.foldl (fun s v => s + (v - mean) ^ 2) 0
    squareDiffs / len

/-- Unrounded grayscale used inside the connected-component scan:
`(r + g + b) / 3`. -/
def ccaGray (p : Pixel) : ℚ := ((p.r : ℚ) + p.g + p.b) / 3

/-- The 8-neighborhood offsets of `calculateConnectedComponents`. -/
def neighborOffsets : List (ℤ × ℤ) :=
  [(-1, -1), (-1, 0), (-1, 1), (0, -1), (0, 1), (1, -1), (1, 0), (1, 1)]

/-- Processing of one neighbor offset `d` of the current pixel `(cx, cy)`
inside the BFS of `calculateConnectedComponents`: enqueue the neighbor when it
is in bounds, unvisited, non-transparent and its gray differs from the current
pixel's by at most 5, marking it visited on enqueue (exactly as the source
marks `visited[nIdx] = 1` on push). -/
def bfsStep (mini : Img) (cx cy : ℕ) (st : List (ℕ × ℕ) × List ℕ) (d : ℤ × ℤ) :
    List (ℕ × ℕ) × List ℕ :=
  let (q, vis) := st
  let nx : ℤ := (cx : ℤ) + d.1
  let ny : ℤ := (cy : ℤ) + d.2
  if 0 ≤ nx ∧ nx < (mini.width : ℤ) ∧ 0 ≤ ny ∧ ny < (mini.height : ℤ) then
    let nxn := nx.toNat
    let nyn := ny.toNat
    let nIdx := nyn * mini.width + nxn
    if ¬ vis.contains nIdx ∧ (mini.pix nxn nyn).a > 0 then
      if |ccaGray (mini.pix cx cy) - ccaGray (mini.pix nxn nyn)| ≤ 5 then
        (q ++ [(nxn, nyn)], vis ++ [nIdx])
      else st
    else st
  else st

/-- One BFS expansion: process all 8 neighbor offsets of the current pixel. -/
def bfsExpand (mini : Img) (cx cy : ℕ) (queue : List (ℕ × ℕ)) (visited : List ℕ) :
    List (ℕ × ℕ) × List ℕ :=
  neighborOffsets.foldl (bfsStep mini cx cy) (queue, visited)

/-- The BFS of `calculateConnectedComponents`, with explicit fuel.  Every
enqueued pixel is marked visited, so distinct pixels are enqueued at most once
and fuel `width * height` always drains the queue. -/
def bfsAux (mini : Img) : ℕ → List (ℕ × ℕ) → List ℕ → ℕ → List ℕ × ℕ
  | 0, _, visited, cnt => (visited, cnt)
  | _ + 1, [], visited, cnt => (visited, cnt)
  | fuel + 1, (cx, cy) :: rest, visited, cnt =>
    let st := bfsExpand mini cx cy rest visited
    bfsAux mini fuel st.1 st.2 (cnt + 1)

/-- The body of the scan loop of `calculateConnectedComponents`: skip a
transparent or already visited pixel, otherwise flood-fill from it and add one
component. -/
def ccaFoldStep (mini : Img) (st : List ℕ × ℕ × ℕ) (p : ℕ × ℕ) :
    List ℕ × ℕ × ℕ :=
  let (visited, connCount, total) := st
  let idx := p.2 * mini.width + p.1
  if (mini.pix p.1 p.2).a = 0 ∨ visited.contains idx then st
  else
    let bfs := bfsAux mini (mini.width * mini.height) [p] (visited ++ [idx]) 0
    (bfs.1, connCount + 1, total + bfs.2)

/-- `calculateConnectedComponents`: scan all pixels in row-major order, start a
BFS at each unvisited non-transparent pixel, and return the component count
together with the total number of pixels covered by the flood fills. -/
def calculateConnectedComponents (mini : Img) : ℕ × ℕ :=
  let coords := (List.range mini.height).flatMap fun y =>
    (List.range mini.width).map fun x => (x, y)
  let res := coords.foldl (ccaFoldStep mini) (([] : List ℕ), 0, 0)
  (res.2.1, res.2.2)

/-- A coordinate pair lying inside the grid. -/
def validCell (mini : Img) (q : ℕ × ℕ) : Prop :=
  q.1 < mini.width ∧ q.2 < mini.height

/-- The flat `ImageData` index `y * width + x` of a cell. -/
def cellIdx (mini : Img) (q : ℕ × ℕ) : ℕ :=
  q.2 * mini.width + q.1

/-- A grid whose pixels all equal the single opaque color `c`. -/
def UniformOpaque (mini : Img) (c : Pixel) : Prop :=
  c.a ≠ 0 ∧ ∀ x y, x < mini.width → y < mini.height → mini.pix x y = c

/-- Invariant of the BFS loop of `calculateConnectedComponents`: queue entries
are valid and already marked visited, the visited list is duplicate-free and
holds only indices of grid cells, its length counts dequeues plus pending
entries, and every visited cell is either still queued or has all its in-grid
neighbors visited. -/
structure BfsInv (mini : Img) (queue : List (ℕ × ℕ)) (visited : List ℕ)
    (cnt : ℕ) : Prop where
  qValid : ∀ p ∈ queue, validCell mini p
  qSeen : ∀ p ∈ queue, cellIdx mini p ∈ visited
  vNodup : visited.Nodup
  vValid : ∀ v ∈ visited, ∃ p, validCell mini p ∧ cellIdx mini p = v
  vLen : visited.length = cnt + queue.length
  closed : ∀ p : ℕ × ℕ, validCell mini p → cellIdx mini p ∈ visited →
    p ∈ queue ∨ ∀ d ∈ neighborOffsets, ∀ a : ℕ × ℕ, validCell mini a →
      (p.1 : ℤ) + d.1 = (a.1 : ℤ) → (p.2 : ℤ) + d.2 = (a.2 : ℤ) →
      cellIdx mini a ∈ visited

/-- `isBlockMeaningful` (imageProcessing.ts bundled with App.tsx):
color cardinality, then luma variance, then (after downsampling when the block
exceeds 128 px in either dimension) connected-component density, short-circuiting
on the first positive signal.  `ds` is the browser's `drawImage` downsampler for
the block `[y1, y2)`, an external primitive passed in explicitly; the unused
`threshold` argument is kept from the source signature. -/
def isBlockMeaningful (ds : Img → ℕ → ℕ → Img) (img : Img) (y1 y2 : ℕ)
    (_threshold : ℚ) : Bool :=
  let blockHeight := y2 - y1
  let pxs := blockPixels img y1 y2
  let opaquePxs := pxs.filter fun p => p.a ≠ 0
  let colorSet := (opaquePxs.map fun p => (p.r, p.g, p.b)).dedup
  let pixelValues := opaquePxs.map fun p => jsRound (((p.r : ℚ) + p.g + p.b) / 3)
  if colorSet.length > 20 then true
  else if calculateVariance pixelValues > 100 then true
  else
    let scale : ℚ := min (128 / (img.width : ℚ)) (128 / (blockHeight : ℚ))
    if scale < 1 then
      let mini := ds img y1 y2
      let cca := calculateConnectedComponents mini
      let areaRatio : ℚ := (cca.2 : ℚ) / ((mini.width * mini.height : ℕ) : ℚ)
      decide (cca.1 > 50) || decide (areaRatio < 95/100)
    else false

/-- The separator block pushed for a run `[s, e)` (`separators.push({...})`). -/
def mkSepBlock (h now k s e : ℕ) : SplitBlock :=
  { id := "sep-" ++ toString now ++ "-" ++ toString k
    label := "分割区 " ++ toString (k + 1)
    source := .separator
    box := mkRunBox h s e }

/-- The valid content block pushed for a run `[s, e)` (`validBlocks.push({...})`). -/
def mkValidBlock (h now k s e : ℕ) : SplitBlock :=
  { id := "block-" ++ toString now ++ "-" ++ toString k
    label := "内容区块 " ++ toString (k + 1)
    source := .pixel
    box := mkRunBox h s e }

/-- The invalid block pushed for a run `[s, e)` (`invalidBlocks.push({...})`). -/
def mkInvalidBlock (h now k s e : ℕ) : SplitBlock :=
  { id := "invalid-" ++ toString now ++ "-" ++ toString k
    label := "无效区块 " ++ toString (k + 1)
    source := .invalid
    box := mkRunBox h s e }

/-- Routing of one run into the three accumulating lists of
`detectPixelBlocks`: separators go to `separators`, content runs go to
`validBlocks` when tall enough (`blockHeight >= minHeightPx`) and accepted by
the content classifier, else to `invalidBlocks`.  `now` is the `Date.now()`
reading embedded into the generated `id` strings. -/
def classifyStep (accept : ℕ → ℕ → Bool) (h : ℕ) (minHeightPx : ℚ) (now : ℕ)
    (acc : List SplitBlock × List SplitBlock × List SplitBlock) (r : Run) :
    List SplitBlock × List SplitBlock × List SplitBlock :=
  let (v, iv, sp) := acc
  if r.isSep then
    (v, iv, sp ++ [mkSepBlock h now sp.length r.start r.stop])
  else if decide (((r.stop - r.start : ℕ) : ℚ) ≥ minHeightPx) && accept r.start r.stop then
    (v ++ [mkValidBlock h now v.length r.start r.stop], iv, sp)
  else
    (v, iv ++ [mkInvalidBlock h now iv.length r.start r.stop], sp)

/-- The classification loop of `detectPixelBlocks` over all runs. -/
def classifyRuns (accept : ℕ → ℕ → Bool) (h : ℕ) (minHeightPx : ℚ) (now : ℕ)
    (rs : List Run) : List SplitBlock × List SplitBlock × List SplitBlock :=
  rs.foldl (classifyStep accept h minHeightPx now) ([], [], [])

/-- The record returned by `detectPixelBlocks`. -/
structure PixelResult where
  blocks : List SplitBlock
  invalidBlocks : List SplitBlock
  separators : List SplitBlock
  coverage : ℤ
deriving DecidableEq, Repr

/-- `b.box.ymax - b.box.ymin`, the normalized height a segment contributes to
the coverage sums. -/
def segHeight (b : SplitBlock) : ℚ := b.box.ymax - b.box.ymin

/-- `list.reduce((acc, b) => acc + (b.box.ymax - b.box.ymin), 0)`. -/
def sumHeights (l : List SplitBlock) : ℚ :=
  l.foldl (fun acc b => acc + (b.box.ymax - b.box.ymin)) 0

/-- `detectPixelBlocks(img, invalidThreshold, minHeightRatio)` with the
content-validity decision abstracted (`accept`), shared by the two versions of
`imageProcessing.ts` in the repository, which differ only in that decision. -/
def detectPixelBlocksCore (accept : ℕ → ℕ → Bool) (img : Img)
    (invalidThreshold minHeightRatio : ℚ) (now : ℕ) : PixelResult :=
  let h := img.height
  let minHeightPx : ℚ := (h : ℚ) * minHeightRatio
  let rs := runs (isSeparatorRow img invalidThreshold) h
  let out := classifyRuns accept h minHeightPx now rs
  let coverage :=
    jsRound (((sumHeights out.1 + sumHeights out.2.1 + sumHeights out.2.2) / 1000) * 100)
  { blocks := out.1
    invalidBlocks := out.2.1
    separators := out.2.2
    coverage := min coverage 100 }

/-- `detectPixelBlocks` of the `imageProcessing.ts` bundled with App.tsx,
whose content-validity check is `isBlockMeaningful` (`ds` is the browser
downsampler it uses for the connected-component pass). -/
def detectPixelBlocksMeaningful (ds : Img → ℕ → ℕ → Img) (img : Img)
    (invalidThreshold minHeightRatio : ℚ) (now : ℕ) : PixelResult :=
  detectPixelBlocksCore
    (fun y1 y2 => isBlockMeaningful ds img y1 y2 invalidThreshold)
    img invalidThreshold minHeightRatio now

/-- `detectPixelBlocks` of the standalone `imageProcessing.ts`, whose
content-validity check is `isBlockValid`. -/
def detectPixelBlocksValid (img : Img) (invalidThreshold minHeightRatio : ℚ)
    (now : ℕ) : PixelResult :=
  detectPixelBlocksCore
    (fun y1 y2 => isBlockValid img y1 y2 invalidThreshold)
    img invalidThreshold minHeightRatio now

/-- One entry of `RefinementMapping.result` (services/openai.ts). -/
structure ResultItem where
  sn : ℤ
  description : String
deriving DecidableEq, Repr

/-- One entry of `RefinementMapping.mapping`: a structural unit linked to
1-based pixel-block indices. -/
structure MapItem where
  sn : ℤ
  original_block_indices : List ℤ
deriving DecidableEq, Repr

/-- `RefinementMapping` returned by `getSemanticRefinement`. -/
structure RefinementMapping where
  result : List ResultItem
  mapping : List MapItem
deriving DecidableEq, Repr

/-- A throwaway block used as the default of safe list indexing; it is never
consulted because the merge only indexes with in-range indices. -/
def dummyBlock : SplitBlock :=
  { id := "", label := "", box := ⟨0, 0, 0, 0⟩, source := .pixel }

/-- The index filtering of `handleRefine`:
`mapItem.original_block_indices.map(idx => idx - 1).filter(idx => idx >= 0 && idx < blocks.length)`. -/
def validIndices (n : ℕ) (item : MapItem) : List ℕ :=
  (((item.original_block_indices.map (· - 1)).filter
    fun idx => decide (0 ≤ idx) && decide (idx < (n : ℤ))).map Int.toNat)

/-- The label of a refined block:
`refinementData.result.find(r => r.sn === mapItem.sn)?.description || ...`
(the JS `||` also replaces an empty description by the fallback). -/
def refinedLabel (rm : RefinementMapping) (sn : ℤ) : String :=
  match rm.result.find? fun r => r.sn == sn with
  | some r => if r.description = "" then "逻辑块 " ++ toString sn else r.description
  | none => "逻辑块 " ++ toString sn

/-- The body of `refinementData.mapping.forEach` in `handleRefine`: discard
out-of-range indices, drop the record if none remain, otherwise sort the valid
indices and merge from the first block's `ymin` to the last block's `ymax`,
forcing full width.  `crop` is `getCropDataUrl img` for the restored image. -/
def refineRecord (blocks : List SplitBlock) (rm : RefinementMapping)
    (crop : Box → String) (now : ℕ) (item : MapItem) : Option SplitBlock :=
  let indices := validIndices blocks.length item
  if indices.isEmpty then none
  else
    let sorted := indices.mergeSort (· ≤ ·)
    let startIdx := sorted.headD 0
    let endIdx := sorted.getLastD 0
    let mergedBox : Box :=
      ⟨(blocks.getD startIdx dummyBlock).box.ymin, 0,
        (blocks.getD endIdx dummyBlock).box.ymax, 1000⟩
    some
      { id := "refined-" ++ toString now ++ "-" ++ toString item.sn
        label := refinedLabel rm item.sn
        box := mergedBox
        dataUrl := some (crop mergedBox)
        source := .refined }

/-- `usedPixelIndices`: every valid index referenced by any mapping record. -/
def usedIndices (n : ℕ) (mapping : List MapItem) : List ℕ :=
  mapping.flatMap (validIndices n)

/-- The merge step of `handleRefine` (types.ts App): build one refined block
per accepted mapping record, carry every unreferenced pixel block through with
its original box, and sort the final list ascending by `ymin`
(`newRefinedBlocks.sort((a, b) => a.box.ymin - b.box.ymin)`, a stable sort). -/
def handleRefineMerge (blocks : List SplitBlock) (rm : RefinementMapping)
    (crop : Box → String) (now : ℕ) : List SplitBlock :=
  let merged := rm.mapping.filterMap (refineRecord blocks rm crop now)
  let used := usedIndices blocks.length rm.mapping
  let carried := (blocks.enum.filter fun p => ¬ used.contains p.1).map fun p =>
    { p.2 with
        id := "refined-raw-" ++ toString p.1
        label := "内容块 " ++ toString (p.1 + 1) ++ " (未映射)"
        source := .refined }
  (merged ++ carried).mergeSort fun a b => decide (a.box.ymin ≤ b.box.ymin)

/-- The App component state that backup and restore exchange. -/
structure AppState where
  originalImage : String
  invalidThreshold : ℚ
  minBlockRatio : ℚ
  blocks : List SplitBlock
  invalidBlocks : List SplitBlock
  separators : List SplitBlock
  refinedBlocks : List SplitBlock
  completeness : ℤ
  refinementCompleteness : ℤ
deriving DecidableEq, Repr

/-- `BackupData` (types.ts).  `refinedBlocks` and `refinementCompleteness` are
optional in the interface; `handleBackup` always writes them. -/
structure BackupData where
  version : String
  timestamp : String
  originalImage : String
  invalidThreshold : ℚ
  minBlockRatio : ℚ
  blocks : List SplitBlock
  invalidBlocks : List SplitBlock
  separators : List SplitBlock
  completeness : ℤ
  refinedBlocks : Option (List SplitBlock)
  refinementCompleteness : Option ℤ
deriving DecidableEq, Repr

/-- `({dataUrl, ...rest}) => rest`: strip the transient crop from a block. -/
def stripDataUrl (b : SplitBlock) : SplitBlock := { b with dataUrl := none }

/-- `handleBackup` (types.ts App): serialize the state, stripping every
cached `dataUrl`.  `ts` is the `new Date().toISOString()` reading. -/
def handleBackup (s : AppState) (ts : String) : BackupData :=
  { version := "4.7"
    timestamp := ts
    originalImage := s.originalImage
    invalidThreshold := s.invalidThreshold
    minBlockRatio := s.minBlockRatio
    blocks := s.blocks.map stripDataUrl
    invalidBlocks := s.invalidBlocks.map stripDataUrl
    separators := s.separators.map stripDataUrl
    completeness := s.completeness
    refinedBlocks := some (s.refinedBlocks.map stripDataUrl)
    refinementCompleteness := some s.refinementCompleteness }

/-- `restoreWithCrops`: regenerate each block's crop from its stored box via
`getCropDataUrl` (`crop`). -/
def restoreWithCrops (crop : Box → String) (l : List SplitBlock) : List SplitBlock :=
  l.map fun b => { b with dataUrl := some (crop b.box) }

/-- `handleRestore` (types.ts App): read the snapshot back, restoring the two
thresholds and regenerating every crop from the stored normalized boxes; when
the snapshot has no `refinedBlocks` entry the refined state is left as it was
(the source has no `else` branch there). -/
def handleRestore (prev : AppState) (data : BackupData) (crop : Box → String) :
    AppState :=
  let base : AppState :=
    { originalImage := data.originalImage
      invalidThreshold := data.invalidThreshold
      minBlockRatio := data.minBlockRatio
      blocks := restoreWithCrops crop data.blocks
      invalidBlocks := restoreWithCrops crop data.invalidBlocks
      separators := restoreWithCrops crop data.separators
      refinedBlocks := prev.refinedBlocks
      completeness := data.completeness
      refinementCompleteness := prev.refinementCompleteness }
  match data.refinedBlocks with
  | some l =>
    { base with
        refinedBlocks := restoreWithCrops crop l
        refinementCompleteness := (data.refinementCompleteness).getD 0 }
  | none => base

/-- Drop `ps` from the front of `cs` if it is literally there. -/
def dropPrefixQ : List Char → List Char → Option (List Char)
  | [], cs => some cs
  | _ :: _, [] => none
  | p :: ps, c :: cs => if p = c then dropPrefixQ ps cs else none

theorem dropPrefixQ_length :
    ∀ (ps cs r : List Char), dropPrefixQ ps cs = some r →
      r.length + ps.length = cs.length := by
  intro ps
  induction ps with
  | nil =>
    intro cs r h
    simp [dropPrefixQ] at h
    simp [h]
  | cons p ps ih =>
    intro cs r h
    cases cs with
    | nil => simp [dropPrefixQ] at h
    | cons c cs =>
      by_cases hpc : p = c
      · simp [dropPrefixQ, hpc] at h
        have := ih cs r h
        simp [List.length_cons]
        omega
      · simp [dropPrefixQ, hpc] at h

/-- A thrown JS error as inspected by `withRetry`: its optional `status` and
`code` properties (a number or a string) and its `message`. -/
structure JsError where
  status : Option (ℕ ⊕ String) := none
  code : Option (ℕ ⊕ String) := none
  message : String := ""
deriving DecidableEq, Repr

/-- `error?.status || error?.code`. -/
def statusOrCode (e : JsError) : Option (ℕ ⊕ String) :=
  e.status.orElse fun _ => e.code

/-- Occurrence check on character lists: `sub` occurs somewhere in `s`. -/
def containsSubList (sub : List Char) : List Char → Bool
  | [] => (dropPrefixQ sub []).isSome
  | c :: r => (dropPrefixQ sub (c :: r)).isSome || containsSubList sub r

/-- `message.includes(sub)`. -/
def includesSub (s sub : String) : Bool :=
  containsSubList sub.data s.data

/-- The rate-limit classification of `withRetry`:
`status === 429 || status === "RESOURCE_EXHAUSTED" || message.includes('429') || message.includes('quota')`. -/
def isRateLimitErr (e : JsError) : Bool :=
  statusOrCode e == some (Sum.inl 429)
    || statusOrCode e == some (Sum.inr ("RESOURCE_EXHAUSTED"))
    || includesSub e.message ("429")
    || includesSub e.message ("quota")

/-- The server-fault classification of `withRetry`:
`status === 500 || status === "INTERNAL" || message.includes('500')`. -/
def isServerErr (e : JsError) : Bool :=
  statusOrCode e == some (Sum.inl 500)
    || statusOrCode e == some (Sum.inr ("INTERNAL"))
    || includesSub e.message ("500")

/-- The retry loop of `withRetry`, with the attempt index `i` explicit.
`fn i` is the collaborator call on attempt `i` and `rnd i` the value of
`Math.random() * 1000` drawn before that attempt's wait.  Besides the outcome
the model returns the list of delays waited, in order.  (When invoked with
`maxRetries = 0` the source throws an undefined `lastError`; the model returns
a blank error in that never-exercised case.) -/
def withRetryAux {T : Type} (fn : ℕ → Except JsError T) (rnd : ℕ → ℚ)
    (maxRetries i : ℕ) (lastError : Option JsError) : Except JsError T × List ℚ :=
  if _h : maxRetries ≤ i then (.error (lastError.getD {}), [])
  else
    match fn i with
    | .ok v => (.ok v, [])
    | .error e =>
      if isRateLimitErr e || isServerErr e then
        let baseDelay : ℚ := if isRateLimitErr e then 2500 else 1000
        let delay := 2 ^ i * baseDelay + rnd i
        let rest := withRetryAux fn rnd maxRetries (i + 1) (some e)
        (rest.1, delay :: rest.2)
      else (.error e, [])
termination_by maxRetries - i

/-- `withRetry(fn, maxRetries = 5)` (services/openai.ts and its
`getSemanticRefinement` variant; the function is identical in both). -/
def withRetry {T : Type} (fn : ℕ → Except JsError T) (rnd : ℕ → ℚ)
    (maxRetries : ℕ := 5) : Except JsError T × List ℚ :=
  withRetryAux fn rnd maxRetries 0 none

/-- Consume the optional `\n` ending the first regex alternative ```` ```json\n? ````. -/
def chompNewline : List Char → List Char
  | [] => []
  | c :: r => if c = '\n' then r else c :: r

theorem chompNewline_length_le (l : List Char) : (chompNewline l).length ≤ l.length := by
  cases l with
  | nil => simp [chompNewline]
  | cons c r => by_cases hc : c = '\n' <;> simp [chompNewline, hc]

/-- The second regex alternative ```` \n?``` ```` at the head of `cs`. -/
def fenceAlt2 : List Char → Option (List Char)
  | [] => none
  | c :: r =>
    if c = '\n' then dropPrefixQ ("```".data) r
    else dropPrefixQ ("```".data) (c :: r)

theorem fenceAlt2_length (cs r : List Char) (h : fenceAlt2 cs = some r) :
    r.length < cs.length := by
  have h3 : ("```".data).length = 3 := rfl
  cases cs with
  | nil => simp [fenceAlt2] at h
  | cons c r' =>
    by_cases hc : c = '\n'
    · simp only [fenceAlt2, hc, if_pos] at h
      have hl := dropPrefixQ_length _ _ _ h
      rw [h3] at hl
      simp only [List.length_cons]
      omega
    · simp only [fenceAlt2, hc, if_neg, not_false_iff] at h
      have hl := dropPrefixQ_length _ _ _ h
      rw [h3] at hl
      simp only [List.length_cons] at hl ⊢
      omega

/-- A match of the fence pattern ``/```json\n?|\n?```/`` at the head of `cs`:
the remainder after the match, trying the first alternative first as the
regex engine does. -/
def fenceAt (cs : List Char) : Option (List Char) :=
  match dropPrefixQ ("```json".data) cs with
  | some rest => some (chompNewline rest)
  | none => fenceAlt2 cs

theorem fenceAt_length (cs r : List Char) (h : fenceAt cs = some r) :
    r.length < cs.length := by
  unfold fenceAt at h
  cases hd : dropPrefixQ ("```json".data) cs with
  | some rest =>
    rw [hd] at h
    simp only [Option.some.injEq] at h
    subst h
    have hlen := dropPrefixQ_length _ _ _ hd
    have h7 : ("```json".data).length = 7 := rfl
    rw [h7] at hlen
    have hle := chompNewline_length_le rest
    omega
  | none =>
    rw [hd] at h
    exact fenceAlt2_length _ _ h

/-- `content.replace(/```json\n?|\n?```/g, "")`: scan left to right, remove
each fence match, advance one character where nothing matches. -/
def replaceFences (cs : List Char) : List Char :=
  match hf : fenceAt cs with
  | some rest => replaceFences rest
  | none =>
    match cs with
    | [] => []
    | c :: cs' => c :: replaceFences cs'
termination_by cs.length
decreasing_by
  · exact fenceAt_length _ _ hf
  · simp

/-- `content.replace(/```json\n?|\n?```/g, "").trim()`. -/
def cleanContent (s : String) : String :=
  (String.mk (replaceFences s.data)).trim

/-- A JSON value as produced by `JSON.parse`; the parse itself is the JS
builtin and is passed into the models as a `jsonParse` parameter. -/
inductive Jx
  | null
  | bool (b : Bool)
  | num (q : ℚ)
  | str (s : String)
  | arr (elems : List Jx)
  | obj (fields : List (String × Jx))

/-- Object field access; `JSON.parse` keeps the last duplicate key. -/
def lookupField (fields : List (String × Jx)) (k : String) : Option Jx :=
  ((fields.filter fun f => f.1 == k).getLast?).map (·.2)

/-- `result.related === true` inside the `try` block of `checkRelevance`;
property access on a non-object either yields `undefined` or throws, and both
paths end in `false`. -/
def relatedTrue : Jx → Bool
  | .obj fields =>
    match lookupField fields ("related") with
    | some (.bool true) => true
    | _ => false
  | _ => false

/-- The response handling of one `checkRelevance` attempt
(services/openai.ts): empty content returns the verdict `false`, the content
is fence-cleaned twice, and a failed `JSON.parse` is caught and also returns
the verdict `false`; no path throws. -/
def checkRelevanceOnce (jsonParse : String → Option Jx) (content : Option String) :
    Except JsError Bool :=
  match content with
  | none => .ok false
  | some c =>
    if c = "" then .ok false
    else
      let c1 := cleanContent c
      let c2 := cleanContent c1
      match jsonParse c2 with
      | none => .ok false
      | some v => .ok (relatedTrue v)

/-- `checkRelevance` end to end: the per-attempt handler wrapped by
`withRetry` with the default 5 attempts.  `respond i` is the collaborator's
`response.choices[0]?.message?.content` on attempt `i`. -/
def checkRelevanceRun (jsonParse : String → Option Jx)
    (respond : ℕ → Option String) (rnd : ℕ → ℚ) : Except JsError Bool × List ℚ :=
  withRetry (fun i => checkRelevanceOnce jsonParse (respond i)) rnd 5

/-- The response handling of one `getSemanticRefinement` attempt: empty
content throws `LLM 返回内容为空`, the content is fence-cleaned once, and a
failed `JSON.parse` throws `LLM JSON parse error`. -/
def getSemanticRefinementOnce (jsonParse : String → Option Jx)
    (content : Option String) : Except JsError Jx :=
  match content with
  | none => .error { message := "LLM 返回内容为空" }
  | some c =>
    if c = "" then .error { message := "LLM 返回内容为空" }
    else
      let c1 := cleanContent c
      match jsonParse c1 with
      | none => .error { message := "LLM JSON parse error" }
      | some v => .ok v

/-- `getSemanticRefinement` end to end: the per-attempt handler wrapped by
`withRetry` with the default 5 attempts. -/
def getSemanticRefinementRun (jsonParse : String → Option Jx)
    (respond : ℕ → Option String) (rnd : ℕ → ℚ) : Except JsError Jx × List ℚ :=
  withRetry (fun i => getSemanticRefinementOnce jsonParse (respond i)) rnd 5

theorem withRetryAux_ok {T : Type} (fn : ℕ → Except JsError T) (rnd : ℕ → ℚ)
    (m i : ℕ) (le : Option JsError) (hi : i < m) (v : T) (h : fn i = .ok v) :
    withRetryAux fn rnd m i le = (.ok v, []) := by
  rw [withRetryAux]
  simp [Nat.not_le.mpr hi, h]

theorem withRetryAux_retry {T : Type} (fn : ℕ → Except JsError T) (rnd : ℕ → ℚ)
    (m i : ℕ) (le : Option JsError) (hi : i < m) (e : JsError) (h : fn i = .error e)
    (hr : (isRateLimitErr e || isServerErr e) = true) :
    withRetryAux fn rnd m i le =
      ((withRetryAux fn rnd m (i + 1) (some e)).1,
        (2 ^ i * (if isRateLimitErr e then (2500 : ℚ) else 1000) + rnd i) ::
          (withRetryAux fn rnd m (i + 1) (some e)).2) := by
  rw [withRetryAux]
  simp [Nat.not_le.mpr hi, h, hr]

theorem withRetryAux_fatal {T : Type} (fn : ℕ → Except JsError T) (rnd : ℕ → ℚ)
    (m i : ℕ) (le : Option JsError) (hi : i < m) (e : JsError) (h : fn i = .error e)
    (hr : (isRateLimitErr e || isServerErr e) = false) :
    withRetryAux fn rnd m i le = (.error e, []) := by
  rw [withRetryAux]
  simp [Nat.not_le.mpr hi, h, hr]

theorem withRetryAux_exhaust {T : Type} (fn : ℕ → Except JsError T) (rnd : ℕ → ℚ)
    (m i : ℕ) (e : JsError) (hi : m ≤ i) :
    withRetryAux fn rnd m i (some e) = (.error e, []) := by
  rw [withRetryAux]
  simp [hi]

/-- **C7.** The resilience wrapper classifies each failure as rate-limit
(base delay 2500 ms) or server-fault (base delay 1000 ms), waits
`2^attempt * base + random(0,1000)` before retrying, makes at most 5 attempts
by default, and propagates a non-retryable error the moment it occurs, with no
further delay; in particular a collaborator failing with a rate-limit signal on
the first 4 attempts and succeeding on the 5th makes the wrapper return the
success result after exactly the 4 rate-limit backoff delays. -/
theorem c7_withRetry_backoff :
    (∀ (T : Type) (fn : ℕ → Except JsError T) (rnd : ℕ → ℚ) (v : T) (errs : ℕ → JsError),
      (∀ i, i < 4 → fn i = .error (errs i) ∧ isRateLimitErr (errs i) = true) →
      fn 4 = .ok v →
      withRetry fn rnd 5 =
        (.ok v, [2500 + rnd 0, 2 * 2500 + rnd 1, 4 * 2500 + rnd 2, 8 * 2500 + rnd 3]))
    ∧ (∀ (T : Type) (fn : ℕ → Except JsError T) (rnd : ℕ → ℚ) (i : ℕ)
        (le : Option JsError) (e : JsError), i < 5 → fn i = .error e →
        isRateLimitErr e = false → isServerErr e = false →
        withRetryAux fn rnd 5 i le = (.error e, []))
    ∧ (∀ (T : Type) (fn : ℕ → Except JsError T) (rnd : ℕ → ℚ) (v : T) (e : JsError),
        fn 0 = .error e → isRateLimitErr e = false → isServerErr e = true →
        fn 1 = .ok v →
        withRetry fn rnd 5 = (.ok v, [1000 + rnd 0]))
    ∧ (∀ (T : Type) (fn : ℕ → Except JsError T) (rnd : ℕ → ℚ) (errs : ℕ → JsError),
        (∀ i, i < 5 → fn i = .error (errs i) ∧ isRateLimitErr (errs i) = true) →
        (withRetry fn rnd 5).1 = .error (errs 4) ∧ (withRetry fn rnd 5).2.length = 5) := by
  refine ⟨?_, ?_, ?_, ?_⟩
  · intro T fn rnd v errs hfail hok
    have h0 := hfail 0 (by norm_num)
    have h1 := hfail 1 (by norm_num)
    have h2 := hfail 2 (by norm_num)
    have h3 := hfail 3 (by norm_num)
    unfold withRetry
    rw [withRetryAux_retry fn rnd 5 0 none (by norm_num) _ h0.1 (by simp [h0.2]),
      withRetryAux_retry fn rnd 5 1 _ (by norm_num) _ h1.1 (by simp [h1.2]),
      withRetryAux_retry fn rnd 5 2 _ (by norm_num) _ h2.1 (by simp [h2.2]),
      withRetryAux_retry fn rnd 5 3 _ (by norm_num) _ h3.1 (by simp [h3.2]),
      withRetryAux_ok fn rnd 5 4 _ (by norm_num) v hok]
    simp [h0.2, h1.2, h2.2, h3.2]
    norm_num
  · intro T fn rnd i le e hi hf hrl hse
    exact withRetryAux_fatal fn rnd 5 i le hi e hf (by simp [hrl, hse])
  · intro T fn rnd v e h0 hrl hse h1
    unfold withRetry
    rw [withRetryAux_retry fn rnd 5 0 none (by norm_num) _ h0 (by simp [hse]),
      withRetryAux_ok fn rnd 5 1 _ (by norm_num) v h1]
    simp [hrl]
  · intro T fn rnd errs hfail
    have h0 := hfail 0 (by norm_num)
    have h1 := hfail 1 (by norm_num)
    have h2 := hfail 2 (by norm_num)
    have h3 := hfail 3 (by norm_num)
    have h4 := hfail 4 (by norm_num)
    unfold withRetry
    rw [withRetryAux_retry fn rnd 5 0 none (by norm_num) _ h0.1 (by simp [h0.2]),
      withRetryAux_retry fn rnd 5 1 _ (by norm_num) _ h1.1 (by simp [h1.2]),
      withRetryAux_retry fn rnd 5 2 _ (by norm_num) _ h2.1 (by simp [h2.2]),
      withRetryAux_retry fn rnd 5 3 _ (by norm_num) _ h3.1 (by simp [h3.2]),
      withRetryAux_retry fn rnd 5 4 _ (by norm_num) _ h4.1 (by simp [h4.2]),
      withRetryAux_exhaust fn rnd 5 5 _ (by norm_num)]
    simp

/-- A rate-limited HTTP error: `status === 429`. -/
def rateLimitErrEx : JsError := { status := some (Sum.inl 429), message := "Too Many Requests" }

/-- A server fault: `status === 500`. -/
def serverErrEx : JsError := { status := some (Sum.inl 500), message := "Internal" }

/-- A non-retryable error: no recognized status and no recognized substring. -/
def fatalErrEx : JsError := { message := "boom" }

/-- The fake collaborator of spec §8.7: rate-limited on the first 4 attempts,
successful on the 5th. -/
def c7fnA : ℕ → Except JsError ℕ :=
  fun i => if i < 4 then .error rateLimitErrEx else .ok 42

/-- A collaborator with one server fault, then success. -/
def c7fnC : ℕ → Except JsError ℕ :=
  fun i => if i = 0 then .error serverErrEx else .ok 7

theorem c7_withRetry_backoff_witness :
    withRetry c7fnA (fun i => (i : ℚ)) 5 = (.ok 42, [2500, 5001, 10002, 20003])
    ∧ withRetryAux (fun _ => (Except.error fatalErrEx : Except JsError ℕ))
        (fun _ => 0) 5 0 none = (.error fatalErrEx, [])
    ∧ withRetry c7fnC (fun _ => (5 : ℚ)) 5 = (.ok 7, [1005]) := by
  refine ⟨?_, ?_, ?_⟩
  · have hfail : ∀ i, i < 4 →
        c7fnA i = .error ((fun _ => rateLimitErrEx) i)
          ∧ isRateLimitErr ((fun _ => rateLimitErrEx) i) = true := by
      intro i hi
      exact ⟨by simp [c7fnA, hi], (by decide : isRateLimitErr rateLimitErrEx = true)⟩
    have h := c7_withRetry_backoff.1 ℕ c7fnA (fun i => (i : ℚ)) 42
      (fun _ => rateLimitErrEx) hfail (by simp [c7fnA])
    rw [h]
    norm_num
  · exact c7_withRetry_backoff.2.1 ℕ _ _ 0 none fatalErrEx (by norm_num) rfl
      (by decide) (by decide)
  · have h := c7_withRetry_backoff.2.2.1 ℕ c7fnC (fun _ => (5 : ℚ)) 7 serverErrEx
      (by simp [c7fnC]) (by decide) (by decide) (by simp [c7fnC])
    rw [h]
    norm_num

/-- **C8, counterexample.** The claim says an empty or unparseable relevance
response raises an error that propagates; in fact `checkRelevance` maps an
empty response to the verdict `false` and performs no retry, so no error is
raised. -/
theorem c8_empty_relevance_counterexample :
    checkRelevanceRun (fun _ => none) (fun _ => some "") (fun _ => 0) = (.ok false, [])
    ∧ checkRelevanceRun (fun _ => none) (fun _ => none) (fun _ => 0) = (.ok false, []) := by
  constructor
  · unfold checkRelevanceRun withRetry
    exact withRetryAux_ok _ _ 5 0 none (by norm_num) false rfl
  · unfold checkRelevanceRun withRetry
    exact withRetryAux_ok _ _ 5 0 none (by norm_num) false rfl

/-- **C8, amended.** Empty or unparseable collaborator output is handled
without any retry, but the two call families differ: the semantic-refinement
call raises a response error (`LLM 返回内容为空` / `LLM JSON parse error`) that
is classified non-retryable and propagates on first occurrence, while the
relevance call swallows the problem and returns the verdict `false`. -/
theorem c8_response_error_handling :
    (∀ (jsonParse : String → Option Jx) (respond : ℕ → Option String) (rnd : ℕ → ℚ),
      (respond 0 = none ∨ respond 0 = some "") →
      getSemanticRefinementRun jsonParse respond rnd =
        (.error { message := "LLM 返回内容为空" }, []))
    ∧ (∀ (jsonParse : String → Option Jx) (respond : ℕ → Option String) (rnd : ℕ → ℚ)
        (c : String), respond 0 = some c → c ≠ "" →
        jsonParse (cleanContent c) = none →
        getSemanticRefinementRun jsonParse respond rnd =
          (.error { message := "LLM JSON parse error" }, []))
    ∧ (∀ (jsonParse : String → Option Jx) (respond : ℕ → Option String) (rnd : ℕ → ℚ),
        (respond 0 = none ∨ respond 0 = some "") →
        checkRelevanceRun jsonParse respond rnd = (.ok false, []))
    ∧ (∀ (jsonParse : String → Option Jx) (respond : ℕ → Option String) (rnd : ℕ → ℚ)
        (c : String), respond 0 = some c → c ≠ "" →
        jsonParse (cleanContent (cleanContent c)) = none →
        checkRelevanceRun jsonParse respond rnd = (.ok false, [])) := by
  have hempty : (isRateLimitErr { message := "LLM 返回内容为空" }
      || isServerErr { message := "LLM 返回内容为空" }) = false := by decide
  have hparse : (isRateLimitErr { message := "LLM JSON parse error" }
      || isServerErr { message := "LLM JSON parse error" }) = false := by decide
  refine ⟨?_, ?_, ?_, ?_⟩
  · intro jsonParse respond rnd h0
    have hf : getSemanticRefinementOnce jsonParse (respond 0) =
        .error { message := "LLM 返回内容为空" } := by
      rcases h0 with h0 | h0 <;> simp [getSemanticRefinementOnce, h0]
    unfold getSemanticRefinementRun withRetry
    exact withRetryAux_fatal _ _ 5 0 none (by norm_num) _ hf hempty
  · intro jsonParse respond rnd c h0 hc hp
    have hf : getSemanticRefinementOnce jsonParse (respond 0) =
        .error { message := "LLM JSON parse error" } := by
      simp [getSemanticRefinementOnce, h0, hc, hp]
    unfold getSemanticRefinementRun withRetry
    exact withRetryAux_fatal _ _ 5 0 none (by norm_num) _ hf hparse
  · intro jsonParse respond rnd h0
    have hf : checkRelevanceOnce jsonParse (respond 0) = .ok false := by
      rcases h0 with h0 | h0 <;> simp [checkRelevanceOnce, h0]
    unfold checkRelevanceRun withRetry
    exact withRetryAux_ok _ _ 5 0 none (by norm_num) false hf
  · intro jsonParse respond rnd c h0 hc hp
    have hf : checkRelevanceOnce jsonParse (respond 0) = .ok false := by
      simp [checkRelevanceOnce, h0, hc, hp]
    unfold checkRelevanceRun withRetry
    exact withRetryAux_ok _ _ 5 0 none (by norm_num) false hf

theorem c8_response_error_handling_witness :
    getSemanticRefinementRun (fun _ => none) (fun _ => some "garbage") (fun _ => 0) =
      (.error { message := "LLM JSON parse error" }, [])
    ∧ getSemanticRefinementRun (fun _ => none) (fun _ => none) (fun _ => 0) =
      (.error { message := "LLM 返回内容为空" }, [])
    ∧ checkRelevanceRun (fun _ => none) (fun _ => some "garbage") (fun _ => 0) =
      (.ok false, []) := by
  refine ⟨?_, ?_, ?_⟩
  · exact c8_response_error_handling.2.1 (fun _ => none) (fun _ => some "garbage")
      (fun _ => 0) "garbage" rfl (by decide) rfl
  · exact c8_response_error_handling.1 (fun _ => none) (fun _ => none)
      (fun _ => 0) (Or.inl rfl)
  · exact c8_response_error_handling.2.2.2 (fun _ => none) (fun _ => some "garbage")
      (fun _ => 0) "garbage" rfl (by decide) rfl

/-- **C9.** Backup followed by restore is a round trip on geometry: every
bounding box of all four segment lists and both control thresholds are
reproduced exactly; the raster crops, stripped by the backup, are regenerated
from the stored boxes by the crop primitive. -/
theorem c9_snapshot_roundtrip (s prev : AppState) (ts : String) (crop : Box → String) :
    (handleRestore prev (handleBackup s ts) crop).blocks.map (·.box) = s.blocks.map (·.box)
    ∧ (handleRestore prev (handleBackup s ts) crop).invalidBlocks.map (·.box) =
        s.invalidBlocks.map (·.box)
    ∧ (handleRestore prev (handleBackup s ts) crop).separators.map (·.box) =
        s.separators.map (·.box)
    ∧ (handleRestore prev (handleBackup s ts) crop).refinedBlocks.map (·.box) =
        s.refinedBlocks.map (·.box)
    ∧ (handleRestore prev (handleBackup s ts) crop).invalidThreshold = s.invalidThreshold
    ∧ (handleRestore prev (handleBackup s ts) crop).minBlockRatio = s.minBlockRatio
    ∧ (handleRestore prev (handleBackup s ts) crop).completeness = s.completeness
    ∧ (handleRestore prev (handleBackup s ts) crop).refinementCompleteness =
        s.refinementCompleteness
    ∧ (handleRestore prev (handleBackup s ts) crop).blocks.map (·.dataUrl) =
        s.blocks.map (fun b => some (crop b.box)) := by
  simp [handleRestore, handleBackup, restoreWithCrops, stripDataUrl,
    List.map_map, Function.comp]

/-- The claim's reading of the quantization: each channel integer-divided by
the bucket size 8 (without the re-multiplication the source performs when it
renders its string key). -/
def divColorKey (r g b : ℕ) : ℕ × ℕ × ℕ := (r / 8, g / 8, b / 8)

/-- The integer-division color keys of all pixels of row `y`. -/
def rowDivKeys (img : Img) (y : ℕ) : List (ℕ × ℕ × ℕ) :=
  (List.range img.width).map fun x =>
    let p := img.pix x y
    divColorKey p.r p.g p.b

/-- Multiply each component of a quantized key back by the bucket size. -/
def mulKey8 (k : ℕ × ℕ × ℕ) : ℕ × ℕ × ℕ := (k.1 * 8, k.2.1 * 8, k.2.2 * 8)

theorem mulKey8_injective : Function.Injective mulKey8 := by
  intro a b h
  obtain ⟨a1, a2, a3⟩ := a
  obtain ⟨b1, b2, b3⟩ := b
  simp [mulKey8] at h
  simp [h.1, h.2.1, h.2.2]

theorem rowKeys_eq_map (img : Img) (y : ℕ) :
    rowKeys img y = (rowDivKeys img y).map mulKey8 := by
  simp only [rowKeys, rowDivKeys, List.map_map]
  rfl

theorem count_map_mulKey8 (l : List (ℕ × ℕ × ℕ)) (a : ℕ × ℕ × ℕ) :
    (l.map mulKey8).count (mulKey8 a) = l.count a := by
  induction l with
  | nil => simp
  | cons b l ih =>
    simp only [List.map_cons, List.count_cons, ih]
    by_cases hab : b = a
    · subst hab
      simp
    · have hne : mulKey8 b ≠ mulKey8 a := fun h => hab (mulKey8_injective h)
      simp [hab, hne]

theorem maxCount_map_mulKey8 (l : List (ℕ × ℕ × ℕ)) :
    maxCount (l.map mulKey8) = maxCount l := by
  unfold maxCount
  rw [List.map_map]
  congr 1
  apply List.map_congr_left
  intro a _
  simpa using count_map_mulKey8 l a

/-- **C2.** A row is classified separator iff the majority count of its pixels'
colors, quantized by integer division by the bucket size 8, divided by the
width, reaches `separatorThreshold = max(0.90, invalidThreshold - 0.05)`; the
boundary case of exact equality is classified separator. -/
theorem c2_separator_row_rule (img : Img) (invalidThreshold : ℚ) (y : ℕ) :
    (isSeparatorRow img invalidThreshold y = true ↔
      (maxCount (rowDivKeys img y) : ℚ) / img.width ≥
        max (9/10) (invalidThreshold - 1/20))
    ∧ ((maxCount (rowDivKeys img y) : ℚ) / img.width =
        max (9/10) (invalidThreshold - 1/20) →
      isSeparatorRow img invalidThreshold y = true) := by
  have hkey : maxCount (rowKeys img y) = maxCount (rowDivKeys img y) := by
    rw [rowKeys_eq_map, maxCount_map_mulKey8]
  constructor
  · rw [isSeparatorRow, decide_eq_true_iff, hkey, separatorThreshold]
  · intro heq
    rw [isSeparatorRow, decide_eq_true_iff, hkey, separatorThreshold]
    exact le_of_eq heq.symm

/-- A 10 × 1 test row: 9 black pixels and 1 white pixel, majority 9/10, which
with `invalidThreshold = 0.95` exactly equals the separator threshold 0.90. -/
def boundaryRowImg : Img :=
  { width := 10
    height := 1
    pix := fun x _ => if x < 9 then ⟨0, 0, 0, 255⟩ else ⟨255, 255, 255, 255⟩ }

theorem c2_separator_row_rule_witness :
    (maxCount (rowDivKeys boundaryRowImg 0) : ℚ) / boundaryRowImg.width =
      max (9/10) ((95 : ℚ)/100 - 1/20)
    ∧ isSeparatorRow boundaryRowImg (95/100) 0 = true := by
  have hmaj : maxCount (rowDivKeys boundaryRowImg 0) = 9 := by decide
  have heq : (maxCount (rowDivKeys boundaryRowImg 0) : ℚ) / boundaryRowImg.width =
      max (9/10) ((95 : ℚ)/100 - 1/20) := by
    rw [hmaj]
    norm_num [boundaryRowImg]
  exact ⟨heq, (c2_separator_row_rule boundaryRowImg (95/100) 0).2 heq⟩

/-- `Chained s h rs`: the runs `rs` tile the row interval `[s, h)`
contiguously, each run nonempty. -/
def Chained (s h : ℕ) : List Run → Prop
  | [] => s = h
  | r :: rs => r.start = s ∧ s < r.stop ∧ Chained r.stop h rs

theorem runsGo_chained (f : ℕ → Bool) (h : ℕ) :
    ∀ fuel startY y inSep, startY < y → y ≤ h → h ≤ fuel + y →
      Chained startY h (runsGo f h fuel startY y inSep) := by
  intro fuel
  induction fuel with
  | zero =>
    intro startY y inSep hsy hyh hfy
    have hyeq : y = h := by omega
    show Chained startY h [⟨startY, h, inSep⟩]
    exact ⟨rfl, show startY < h by omega, rfl⟩
  | succ fuel ih =>
    intro startY y inSep hsy hyh hfy
    simp only [runsGo]
    by_cases hy : h ≤ y
    · simp only [if_pos hy]
      exact ⟨rfl, show startY < h by omega, rfl⟩
    · simp only [if_neg hy]
      by_cases hne : f y ≠ inSep
      · simp only [if_pos hne]
        exact ⟨rfl, hsy, ih y (y + 1) (f y) (by omega) (by omega) (by omega)⟩
      · simp only [if_neg hne]
        exact ih startY (y + 1) inSep (by omega) (by omega) (by omega)

theorem runs_chained (f : ℕ → Bool) (h : ℕ) (hh : 0 < h) :
    Chained 0 h (runs f h) := by
  rw [runs, if_neg (by omega)]
  exact runsGo_chained f h h 0 1 (f 0) (by omega) hh (by omega)

theorem Chained.le_height : ∀ {s h : ℕ} {rs : List Run}, Chained s h rs → s ≤ h := by
  intro s h rs
  induction rs generalizing s with
  | nil => intro hc; exact le_of_eq hc
  | cons a rs ih =>
    intro hc
    obtain ⟨_, hlt, hrest⟩ := hc
    exact le_trans (le_of_lt hlt) (ih hrest)

theorem Chained.mem_bounds : ∀ {s h : ℕ} {rs : List Run}, Chained s h rs →
    ∀ r ∈ rs, s ≤ r.start ∧ r.start < r.stop ∧ r.stop ≤ h := by
  intro s h rs
  induction rs generalizing s with
  | nil => intro _ r hr; simp at hr
  | cons a rs ih =>
    intro hc r hr
    obtain ⟨ha, hlt, hrest⟩ := hc
    rcases List.mem_cons.mp hr with rfl | hr
    · exact ⟨le_of_eq ha.symm, by omega, Chained.le_height hrest⟩
    · have := ih hrest r hr
      exact ⟨by omega, this.2.1, this.2.2⟩

theorem Chained.chain'_adjacent : ∀ {s h : ℕ} {rs : List Run}, Chained s h rs →
    List.Chain' (fun a b => a.stop = b.start) rs := by
  intro s h rs
  induction rs generalizing s with
  | nil => intro _; simp
  | cons a rs ih =>
    intro hc
    obtain ⟨_, _, hrest⟩ := hc
    cases rs with
    | nil => simp
    | cons b rs' =>
      exact List.Chain'.cons hrest.1.symm (ih hrest)

theorem Chained.head_start : ∀ {s h : ℕ} {r : Run} {rs : List Run},
    Chained s h (r :: rs) → r.start = s := by
  intro s h r rs hc
  exact hc.1

theorem Chained.last_stop : ∀ {s h : ℕ} {rs : List Run}, Chained s h rs →
    ∀ r, rs.getLast? = some r → r.stop = h := by
  intro s h rs
  induction rs generalizing s with
  | nil => intro _ r hr; simp at hr
  | cons a rs ih =>
    intro hc r hr
    obtain ⟨_, hlt, hrest⟩ := hc
    cases rs with
    | nil =>
      simp at hr
      subst hr
      exact hrest
    | cons b rs' =>
      rw [List.getLast?_cons_cons] at hr
      exact ih hrest r hr

theorem Chained.sum_spans : ∀ {s h : ℕ} {rs : List Run}, Chained s h rs →
    (rs.map fun r => (r.stop : ℚ) - r.start).sum = (h : ℚ) - s := by
  intro s h rs
  induction rs generalizing s with
  | nil =>
    intro hc
    subst hc
    simp
  | cons a rs ih =>
    intro hc
    obtain ⟨ha, _, hrest⟩ := hc
    simp only [List.map_cons, List.sum_cons, ih hrest, ha]
    ring

/-- The multiset of boxes of a `(validBlocks, invalidBlocks, separators)`
accumulator, valid first, then invalid, then separators. -/
def outBoxes (out : List SplitBlock × List SplitBlock × List SplitBlock) : List Box :=
  out.1.map (·.box) ++ out.2.1.map (·.box) ++ out.2.2.map (·.box)

theorem middle_to_end {α : Type} (xs ys : List α) (b : α) :
    (xs ++ [b] ++ ys).Perm (xs ++ ys ++ [b]) := by
  simpa [List.append_assoc] using
    List.Perm.append_left xs (@List.perm_append_comm _ [b] ys)

theorem classifyStep_boxes (accept : ℕ → ℕ → Bool) (h : ℕ) (mp : ℚ) (now : ℕ)
    (acc : List SplitBlock × List SplitBlock × List SplitBlock) (r : Run) :
    (outBoxes (classifyStep accept h mp now acc r)).Perm
      (outBoxes acc ++ [mkRunBox h r.start r.stop]) := by
  obtain ⟨v, iv, sp⟩ := acc
  unfold classifyStep
  by_cases hsep : r.isSep
  · simp [hsep, outBoxes, mkSepBlock, List.append_assoc]
  · by_cases hacc : decide (((r.stop - r.start : ℕ) : ℚ) ≥ mp) && accept r.start r.stop
    · simp only [hsep, if_neg, Bool.false_eq_true, not_false_iff, hacc, if_pos]
      simp only [outBoxes, mkValidBlock, List.map_append, List.map_cons, List.map_nil]
      have := middle_to_end (v.map (·.box))
        (iv.map (·.box) ++ sp.map (·.box)) (mkRunBox h r.start r.stop)
      simpa [List.append_assoc] using this
    · simp only [hsep, if_neg, Bool.false_eq_true, not_false_iff, hacc, if_neg]
      simp only [outBoxes, mkInvalidBlock, List.map_append, List.map_cons, List.map_nil]
      have := middle_to_end (v.map (·.box) ++ iv.map (·.box))
        (sp.map (·.box)) (mkRunBox h r.start r.stop)
      simpa [List.append_assoc] using this

theorem classifyRuns_boxes_aux (accept : ℕ → ℕ → Bool) (h : ℕ) (mp : ℚ) (now : ℕ)
    (rs : List Run) :
    ∀ acc, (outBoxes (rs.foldl (classifyStep accept h mp now) acc)).Perm
      (outBoxes acc ++ rs.map fun r => mkRunBox h r.start r.stop) := by
  induction rs with
  | nil => intro acc; simp
  | cons r rs ih =>
    intro acc
    simp only [List.foldl_cons, List.map_cons]
    refine ((ih (classifyStep accept h mp now acc r)).trans ?_)
    refine ((classifyStep_boxes accept h mp now acc r).append_right _).trans ?_
    simp [List.append_assoc]

/-- The boxes of the three output lists of the classification are, as a
multiset, exactly the unrounded run boxes, in run order. -/
theorem classifyRuns_boxes (accept : ℕ → ℕ → Bool) (h : ℕ) (mp : ℚ) (now : ℕ)
    (rs : List Run) :
    (outBoxes (classifyRuns accept h mp now rs)).Perm
      (rs.map fun r => mkRunBox h r.start r.stop) := by
  simpa [outBoxes] using classifyRuns_boxes_aux accept h mp now rs ([], [], [])

theorem foldl_add_eq {α : Type} (g : α → ℚ) (l : List α) :
    ∀ a : ℚ, l.foldl (fun acc b => acc + g b) a = a + (l.map g).sum := by
  induction l with
  | nil => intro a; simp
  | cons b l ih => intro a; simp [ih, add_assoc]

theorem sumHeights_eq (l : List SplitBlock) :
    sumHeights l = (l.map fun b => b.box.ymax - b.box.ymin).sum := by
  unfold sumHeights
  simpa using foldl_add_eq (fun b => b.box.ymax - b.box.ymin) l 0

/-- The ordered, unrounded run boxes of the pixel pipeline on `img`. -/
def pipelineRunBoxes (img : Img) (invalidThreshold : ℚ) : List Box :=
  (runs (isSeparatorRow img invalidThreshold) img.height).map fun r =>
    mkRunBox img.height r.start r.stop

theorem pipelineRunBoxes_height_sum (img : Img) (t : ℚ) (hh : 0 < img.height) :
    ((pipelineRunBoxes img t).map fun b => b.ymax - b.ymin).sum = 1000 := by
  have hc := runs_chained (isSeparatorRow img t) img.height hh
  have hne : ((img.height : ℚ)) ≠ 0 := Nat.cast_ne_zero.mpr (by omega)
  unfold pipelineRunBoxes
  rw [List.map_map]
  have h1 : ((fun b => b.ymax - b.ymin) ∘ fun r => mkRunBox img.height r.start r.stop)
      = fun r : Run => ((r.stop : ℚ) - r.start) * (1000 / img.height) := by
    funext r
    simp only [Function.comp, mkRunBox]
    ring
  rw [h1, List.sum_map_mul_right, hc.sum_spans]
  field_simp

theorem detect_total (accept : ℕ → ℕ → Bool) (img : Img) (t mr : ℚ) (now : ℕ) :
    sumHeights (detectPixelBlocksCore accept img t mr now).blocks
      + sumHeights (detectPixelBlocksCore accept img t mr now).invalidBlocks
      + sumHeights (detectPixelBlocksCore accept img t mr now).separators
    = ((pipelineRunBoxes img t).map fun b => b.ymax - b.ymin).sum := by
  have hperm := (classifyRuns_boxes accept img.height ((img.height : ℚ) * mr) now
    (runs (isSeparatorRow img t) img.height)).map (fun b => b.ymax - b.ymin)
  have hsum := hperm.sum_eq
  simp only [outBoxes, List.map_append, List.sum_append, List.map_map] at hsum
  simp only [detectPixelBlocksCore, sumHeights_eq, pipelineRunBoxes, List.map_map]
  exact hsum

/-- **C4.** The reported completeness equals
`min(100, round(100 * Σ segment heights / 1000))` over the pixel-content,
invalid and separator segments together, and always lies in `[0, 100]`. -/
theorem c4_coverage_bounds (accept : ℕ → ℕ → Bool) (img : Img) (t mr : ℚ) (now : ℕ) :
    (detectPixelBlocksCore accept img t mr now).coverage =
      min 100 (jsRound (100 *
        (sumHeights (detectPixelBlocksCore accept img t mr now).blocks
          + sumHeights (detectPixelBlocksCore accept img t mr now).invalidBlocks
          + sumHeights (detectPixelBlocksCore accept img t mr now).separators) / 1000))
    ∧ 0 ≤ (detectPixelBlocksCore accept img t mr now).coverage
    ∧ (detectPixelBlocksCore accept img t mr now).coverage ≤ 100 := by
  have htot := detect_total accept img t mr now
  have htotval : sumHeights (detectPixelBlocksCore accept img t mr now).blocks
      + sumHeights (detectPixelBlocksCore accept img t mr now).invalidBlocks
      + sumHeights (detectPixelBlocksCore accept img t mr now).separators
      = if img.height = 0 then 0 else 1000 := by
    by_cases hh : img.height = 0
    · rw [htot]
      simp [pipelineRunBoxes, runs, hh]
    · rw [htot, pipelineRunBoxes_height_sum img t (by omega)]
      simp [hh]
  have hcov : (detectPixelBlocksCore accept img t mr now).coverage =
      min (jsRound ((sumHeights (detectPixelBlocksCore accept img t mr now).blocks
        + sumHeights (detectPixelBlocksCore accept img t mr now).invalidBlocks
        + sumHeights (detectPixelBlocksCore accept img t mr now).separators) / 1000 * 100))
        100 := rfl
  have harg : (sumHeights (detectPixelBlocksCore accept img t mr now).blocks
      + sumHeights (detectPixelBlocksCore accept img t mr now).invalidBlocks
      + sumHeights (detectPixelBlocksCore accept img t mr now).separators) / 1000 * 100
      = 100 * (sumHeights (detectPixelBlocksCore accept img t mr now).blocks
        + sumHeights (detectPixelBlocksCore accept img t mr now).invalidBlocks
        + sumHeights (detectPixelBlocksCore accept img t mr now).separators) / 1000 := by
    ring
  refine ⟨?_, ?_, ?_⟩
  · rw [hcov, harg, min_comm]
  · rw [hcov]
    refine le_min ?_ (by norm_num)
    rw [jsRound]
    refine Int.le_floor.mpr ?_
    rw [htotval]
    by_cases hh : img.height = 0 <;> simp [hh] <;> norm_num
  · rw [hcov]
    exact min_le_right _ _

/-- **C10.** On any image of positive height the pixel pipeline's segments
(valid, invalid and separator blocks taken together, in vertical run order)
exactly tile the normalized space: the boxes of the three lists are, as a
multiset, the ordered run boxes, whose first `ymin` is 0, last `ymax` is 1000,
and where each `ymax` equals the next `ymin`; consequently the coverage value
is exactly 100. -/
theorem c10_pipeline_tiling (accept : ℕ → ℕ → Bool) (img : Img) (t mr : ℚ)
    (now : ℕ) (hh : 0 < img.height) :
    ((detectPixelBlocksCore accept img t mr now).blocks.map (·.box)
      ++ (detectPixelBlocksCore accept img t mr now).invalidBlocks.map (·.box)
      ++ (detectPixelBlocksCore accept img t mr now).separators.map (·.box)).Perm
        (pipelineRunBoxes img t)
    ∧ pipelineRunBoxes img t ≠ []
    ∧ (∀ b, (pipelineRunBoxes img t).head? = some b → b.ymin = 0)
    ∧ (∀ b, (pipelineRunBoxes img t).getLast? = some b → b.ymax = 1000)
    ∧ List.Chain' (fun a b => a.ymax = b.ymin) (pipelineRunBoxes img t)
    ∧ (detectPixelBlocksCore accept img t mr now).coverage = 100 := by
  have hc := runs_chained (isSeparatorRow img t) img.height hh
  have hne : ((img.height : ℚ)) ≠ 0 := Nat.cast_ne_zero.mpr (by omega)
  have hrne : runs (isSeparatorRow img t) img.height ≠ [] := by
    intro habs
    rw [habs] at hc
    exact absurd hc.symm (by omega)
  refine ⟨?_, ?_, ?_, ?_, ?_, ?_⟩
  · exact classifyRuns_boxes accept img.height ((img.height : ℚ) * mr) now
      (runs (isSeparatorRow img t) img.height)
  · simpa [pipelineRunBoxes] using hrne
  · intro b hb
    unfold pipelineRunBoxes at hb
    rw [List.head?_map] at hb
    cases hr : (runs (isSeparatorRow img t) img.height).head? with
    | none => rw [hr] at hb; simp at hb
    | some r =>
      rw [hr] at hb
      have hb' : mkRunBox img.height r.start r.stop = b := by simpa using hb
      obtain ⟨r', rs', hcons⟩ := List.exists_cons_of_ne_nil hrne
      rw [hcons] at hr hc
      have hrr : r' = r := by simpa using hr
      subst hrr
      have hstart : r'.start = 0 := hc.1
      rw [← hb']
      simp [mkRunBox, hstart]
  · intro b hb
    unfold pipelineRunBoxes at hb
    rw [List.getLast?_map] at hb
    cases hr : (runs (isSeparatorRow img t) img.height).getLast? with
    | none => rw [hr] at hb; simp at hb
    | some r =>
      rw [hr] at hb
      have hb' : mkRunBox img.height r.start r.stop = b := by simpa using hb
      have hstop : r.stop = img.height := hc.last_stop r hr
      rw [← hb']
      simp only [mkRunBox, hstop]
      field_simp
  · unfold pipelineRunBoxes
    rw [List.chain'_map]
    refine List.Chain'.imp ?_ hc.chain'_adjacent
    intro a b hab
    simp [mkRunBox, hab]
  · have hcov : (detectPixelBlocksCore accept img t mr now).coverage =
        min (jsRound ((sumHeights (detectPixelBlocksCore accept img t mr now).blocks
          + sumHeights (detectPixelBlocksCore accept img t mr now).invalidBlocks
          + sumHeights (detectPixelBlocksCore accept img t mr now).separators)
            / 1000 * 100)) 100 := rfl
    rw [hcov, detect_total accept img t mr now,
      pipelineRunBoxes_height_sum img t hh]
    norm_num [jsRound]

theorem c10_pipeline_tiling_witness :
    ((detectPixelBlocksCore (fun _ _ => true) boundaryRowImg (97/100) (1/500) 0).blocks.map (·.box)
      ++ (detectPixelBlocksCore (fun _ _ => true) boundaryRowImg (97/100) (1/500) 0).invalidBlocks.map (·.box)
      ++ (detectPixelBlocksCore (fun _ _ => true) boundaryRowImg (97/100) (1/500) 0).separators.map (·.box)).Perm
        (pipelineRunBoxes boundaryRowImg (97/100))
    ∧ pipelineRunBoxes boundaryRowImg (97/100) ≠ []
    ∧ (∀ b, (pipelineRunBoxes boundaryRowImg (97/100)).head? = some b → b.ymin = 0)
    ∧ (∀ b, (pipelineRunBoxes boundaryRowImg (97/100)).getLast? = some b → b.ymax = 1000)
    ∧ List.Chain' (fun a b => a.ymax = b.ymin) (pipelineRunBoxes boundaryRowImg (97/100))
    ∧ (detectPixelBlocksCore (fun _ _ => true) boundaryRowImg (97/100) (1/500) 0).coverage = 100 :=
  c10_pipeline_tiling (fun _ _ => true) boundaryRowImg (97/100) (1/500) 0 (by decide)

/-- A 2 × 3 test image: row 0 uniform (a separator), rows 1–2 half black half
white (content).  Height 3 does not divide 1000, so the run boundary at row 1
produces the non-integer normalized coordinate 1000/3. -/
def threeRowImg : Img :=
  { width := 2
    height := 3
    pix := fun x y =>
      if y = 0 then ⟨0, 0, 0, 255⟩
      else if x = 0 then ⟨0, 0, 0, 255⟩ else ⟨255, 255, 255, 255⟩ }

/-- **C5, counterexample.** The claim says run boxes are rounded
(`ymin = round(startRow/H*1000)`); on a 3-row image the separator run `[0, 1)`
gets the exact box `ymax = 1000/3`, which is not an integer, differing from
the claimed `round(1/3*1000) = 333`. -/
theorem threeRowImg_row0 : isSeparatorRow threeRowImg (97/100) 0 = true := by
  unfold isSeparatorRow
  rw [show maxCount (rowKeys threeRowImg 0) = 2 from by decide]
  rw [decide_eq_true_eq]
  show ((2 : ℕ) : ℚ) / ((2 : ℕ) : ℚ) ≥ separatorThreshold (97/100)
  rw [separatorThreshold]
  norm_num

theorem threeRowImg_row1 : isSeparatorRow threeRowImg (97/100) 1 = false := by
  unfold isSeparatorRow
  rw [show maxCount (rowKeys threeRowImg 1) = 1 from by decide]
  rw [decide_eq_false_iff_not]
  show ¬ ((1 : ℕ) : ℚ) / ((2 : ℕ) : ℚ) ≥ separatorThreshold (97/100)
  rw [separatorThreshold]
  norm_num

theorem threeRowImg_row2 : isSeparatorRow threeRowImg (97/100) 2 = false := by
  unfold isSeparatorRow
  rw [show maxCount (rowKeys threeRowImg 2) = 1 from by decide]
  rw [decide_eq_false_iff_not]
  show ¬ ((1 : ℕ) : ℚ) / ((2 : ℕ) : ℚ) ≥ separatorThreshold (97/100)
  rw [separatorThreshold]
  norm_num

theorem threeRowImg_runs :
    runs (isSeparatorRow threeRowImg (97/100)) 3 = [⟨0, 1, true⟩, ⟨1, 3, false⟩] := by
  simp [runs, runsGo, threeRowImg_row0, threeRowImg_row1, threeRowImg_row2]

theorem c5_box_rounding_counterexample :
    (detectPixelBlocksValid threeRowImg (97/100) (1/500) 0).separators.map (·.box)
      = [⟨0, 0, 1000/3, 1000⟩]
    ∧ ((1000/3 : ℚ) ≠ ((jsRound ((1 : ℚ) / 3 * 1000) : ℤ) : ℚ)) := by
  constructor
  · have hbv : isBlockValid threeRowImg 1 3 (97/100) = true := by
      rw [show isBlockValid threeRowImg 1 3 (97/100)
          = decide (((2 : ℕ) : ℚ) / ((4 : ℕ) : ℚ) < 97/100) from rfl]
      rw [decide_eq_true_eq]
      norm_num
    have hmin : decide ((((2 : ℕ)) : ℚ) ≥ ((3 : ℕ) : ℚ) * (1/500)) = true := by
      rw [decide_eq_true_eq]
      norm_num
    simp only [detectPixelBlocksValid, detectPixelBlocksCore,
      show threeRowImg.height = 3 from rfl, threeRowImg_runs]
    simp only [classifyRuns, List.foldl_cons, List.foldl_nil]
    simp [classifyStep, hbv, hmin, mkSepBlock, mkRunBox]
    norm_num
  · intro h
    rw [show jsRound ((1 : ℚ) / 3 * 1000) = 333 by norm_num [jsRound]] at h
    norm_num at h

/-- **C5, amended.** Each run of the aggregator gets the box
`{ymin: startRow/H*1000, xmin: 0, ymax: endRow/H*1000, xmax: 1000}` with the
normalized coordinates kept exact, not rounded to integers: the boxes of the
three produced segment lists are, as a multiset, exactly these unrounded run
boxes. -/
theorem c5_run_boxes_unrounded (accept : ℕ → ℕ → Bool) (img : Img) (t mr : ℚ)
    (now : ℕ) :
    ((detectPixelBlocksCore accept img t mr now).blocks.map (·.box)
      ++ (detectPixelBlocksCore accept img t mr now).invalidBlocks.map (·.box)
      ++ (detectPixelBlocksCore accept img t mr now).separators.map (·.box)).Perm
      ((runs (isSeparatorRow img t) img.height).map fun r =>
        ⟨(r.start : ℚ) / img.height * 1000, 0, (r.stop : ℚ) / img.height * 1000, 1000⟩) :=
  classifyRuns_boxes accept img.height ((img.height : ℚ) * mr) now
    (runs (isSeparatorRow img t) img.height)

/-- A 1 × 1 white image; its single row is a separator. -/
def oneWhiteImg : Img :=
  { width := 1, height := 1, pix := fun _ _ => ⟨255, 255, 255, 255⟩ }

theorem oneWhiteImg_row0 : isSeparatorRow oneWhiteImg (97/100) 0 = true := by
  unfold isSeparatorRow
  rw [show maxCount (rowKeys oneWhiteImg 0) = 1 from by decide]
  rw [decide_eq_true_eq]
  show ((1 : ℕ) : ℚ) / ((1 : ℕ) : ℚ) ≥ separatorThreshold (97/100)
  rw [separatorThreshold]
  norm_num

theorem oneWhiteImg_sep_ids (now : ℕ) :
    (detectPixelBlocksValid oneWhiteImg (97/100) (1/500) now).separators.map (·.id)
      = ["sep-" ++ toString now ++ "-" ++ toString 0] := by
  have hruns : runs (isSeparatorRow oneWhiteImg (97/100)) 1 = [⟨0, 1, true⟩] := by
    simp [runs, runsGo, oneWhiteImg_row0]
  simp only [detectPixelBlocksValid, detectPixelBlocksCore,
    show oneWhiteImg.height = 1 from rfl, hruns]
  simp [classifyRuns, classifyStep, mkSepBlock]

/-- **C6, counterexample.** The claim says two runs of the decomposition on an
identical pixel grid with identical thresholds produce byte-for-byte identical
segment lists; in fact every segment `id` embeds the `Date.now()` reading, so
two runs at different clock readings differ. -/
theorem c6_determinism_counterexample :
    detectPixelBlocksValid oneWhiteImg (97/100) (1/500) 0
      ≠ detectPixelBlocksValid oneWhiteImg (97/100) (1/500) 1 := by
  intro h
  have h0 := oneWhiteImg_sep_ids 0
  have h1 := oneWhiteImg_sep_ids 1
  rw [h] at h0
  have := h0.symm.trans h1
  exact absurd this (by decide)

/-- The clock-independent content of a segment: everything except its `id`. -/
def geomOf (b : SplitBlock) : String × Box × Option String × Source :=
  (b.label, b.box, b.dataUrl, b.source)

theorem classifyStep_geom (accept : ℕ → ℕ → Bool) (h : ℕ) (mp : ℚ) (now now' : ℕ)
    (acc acc' : List SplitBlock × List SplitBlock × List SplitBlock) (r : Run)
    (h1 : acc.1.map geomOf = acc'.1.map geomOf)
    (h2 : acc.2.1.map geomOf = acc'.2.1.map geomOf)
    (h3 : acc.2.2.map geomOf = acc'.2.2.map geomOf) :
    ((classifyStep accept h mp now acc r).1.map geomOf
      = (classifyStep accept h mp now' acc' r).1.map geomOf)
    ∧ ((classifyStep accept h mp now acc r).2.1.map geomOf
      = (classifyStep accept h mp now' acc' r).2.1.map geomOf)
    ∧ ((classifyStep accept h mp now acc r).2.2.map geomOf
      = (classifyStep accept h mp now' acc' r).2.2.map geomOf) := by
  obtain ⟨v, iv, sp⟩ := acc
  obtain ⟨v', iv', sp'⟩ := acc'
  have hlv : v.length = v'.length := by
    have := congrArg List.length h1
    simpa using this
  have hliv : iv.length = iv'.length := by
    have := congrArg List.length h2
    simpa using this
  have hlsp : sp.length = sp'.length := by
    have := congrArg List.length h3
    simpa using this
  unfold classifyStep
  by_cases hsep : r.isSep
  · simp only [hsep, if_pos]
    exact ⟨h1, h2, by simp [h3, mkSepBlock, geomOf, hlsp]⟩
  · simp only [hsep, Bool.false_eq_true, if_neg, not_false_iff]
    by_cases hacc : decide (((r.stop - r.start : ℕ) : ℚ) ≥ mp) && accept r.start r.stop
    · simp only [hacc, if_pos]
      exact ⟨by simp [h1, mkValidBlock, geomOf, hlv], h2, h3⟩
    · simp only [hacc, if_neg]
      exact ⟨h1, by simp [h2, mkInvalidBlock, geomOf, hliv], h3⟩

theorem classifyRuns_geom_aux (accept : ℕ → ℕ → Bool) (h : ℕ) (mp : ℚ)
    (now now' : ℕ) (rs : List Run) :
    ∀ acc acc' : List SplitBlock × List SplitBlock × List SplitBlock,
      acc.1.map geomOf = acc'.1.map geomOf →
      acc.2.1.map geomOf = acc'.2.1.map geomOf →
      acc.2.2.map geomOf = acc'.2.2.map geomOf →
      ((rs.foldl (classifyStep accept h mp now) acc).1.map geomOf
        = (rs.foldl (classifyStep accept h mp now') acc').1.map geomOf)
      ∧ ((rs.foldl (classifyStep accept h mp now) acc).2.1.map geomOf
        = (rs.foldl (classifyStep accept h mp now') acc').2.1.map geomOf)
      ∧ ((rs.foldl (classifyStep accept h mp now) acc).2.2.map geomOf
        = (rs.foldl (classifyStep accept h mp now') acc').2.2.map geomOf) := by
  induction rs with
  | nil => intro acc acc' h1 h2 h3; exact ⟨h1, h2, h3⟩
  | cons r rs ih =>
    intro acc acc' h1 h2 h3
    simp only [List.foldl_cons]
    obtain ⟨g1, g2, g3⟩ := classifyStep_geom accept h mp now now' acc acc' r h1 h2 h3
    exact ih _ _ g1 g2 g3

/-- **C6, amended.** The decomposition is a pure function of the pixel grid,
the thresholds and the `Date.now()` clock reading; at a fixed clock reading the
output is unique, and across different clock readings everything except the
generated `id` strings — label, box, crop and source of every segment, list
order included, and the coverage value — is identical. -/
theorem c6_determinism_up_to_ids (accept : ℕ → ℕ → Bool) (img : Img)
    (t mr : ℚ) (now now' : ℕ) :
    ((detectPixelBlocksCore accept img t mr now).blocks.map geomOf
      = (detectPixelBlocksCore accept img t mr now').blocks.map geomOf)
    ∧ ((detectPixelBlocksCore accept img t mr now).invalidBlocks.map geomOf
      = (detectPixelBlocksCore accept img t mr now').invalidBlocks.map geomOf)
    ∧ ((detectPixelBlocksCore accept img t mr now).separators.map geomOf
      = (detectPixelBlocksCore accept img t mr now').separators.map geomOf)
    ∧ (detectPixelBlocksCore accept img t mr now).coverage
      = (detectPixelBlocksCore accept img t mr now').coverage := by
  obtain ⟨g1, g2, g3⟩ := classifyRuns_geom_aux accept img.height ((img.height : ℚ) * mr)
    now now' (runs (isSeparatorRow img t) img.height) ([], [], []) ([], [], [])
    rfl rfl rfl
  have hbox : ∀ l l' : List SplitBlock, l.map geomOf = l'.map geomOf →
      l.map (fun b => b.box.ymax - b.box.ymin) = l'.map (fun b => b.box.ymax - b.box.ymin) := by
    intro l l' hg
    have := congrArg (List.map fun g : String × Box × Option String × Source =>
      g.2.1.ymax - g.2.1.ymin) hg
    simpa [List.map_map, Function.comp, geomOf] using this
  have hsum : ∀ l l' : List SplitBlock, l.map geomOf = l'.map geomOf →
      sumHeights l = sumHeights l' := by
    intro l l' hg
    rw [sumHeights_eq, sumHeights_eq, hbox l l' hg]
  refine ⟨g1, g2, g3, ?_⟩
  show min (jsRound _) 100 = min (jsRound _) 100
  unfold classifyRuns
  rw [hsum _ _ g1, hsum _ _ g2, hsum _ _ g3]

theorem headD_mem {α : Type} (l : List α) (hl : l ≠ []) (d : α) : l.headD d ∈ l := by
  cases l with
  | nil => exact absurd rfl hl
  | cons a t => simp

theorem getLastD_mem_cons {α : Type} :
    ∀ (t : List α) (a : α), t.getLastD a ∈ a :: t := by
  intro t
  induction t with
  | nil => intro a; simp [List.getLastD]
  | cons b t' ih =>
    intro a
    rw [List.getLastD_cons]
    exact List.mem_cons_of_mem a (ih b)

theorem getLastD_mem {α : Type} (l : List α) (hl : l ≠ []) (d : α) :
    l.getLastD d ∈ l := by
  cases l with
  | nil => exact absurd rfl hl
  | cons a t =>
    rw [List.getLastD_cons]
    exact getLastD_mem_cons t a

theorem pairwise_headD_le (l : List ℕ) (hp : List.Pairwise (· ≤ ·) l) :
    ∀ x ∈ l, l.headD 0 ≤ x := by
  cases l with
  | nil => intro x hx; simp at hx
  | cons a t =>
    intro x hx
    rcases List.mem_cons.mp hx with rfl | hx
    · simp
    · simpa using (List.pairwise_cons.mp hp).1 x hx

theorem pairwise_le_getLastD_cons : ∀ (t : List ℕ) (a : ℕ),
    List.Pairwise (· ≤ ·) (a :: t) → ∀ x ∈ a :: t, x ≤ t.getLastD a := by
  intro t
  induction t with
  | nil =>
    intro a _ x hx
    simp at hx
    simp [hx, List.getLastD]
  | cons b t' ih =>
    intro a hp x hx
    obtain ⟨hhead, htail⟩ := List.pairwise_cons.mp hp
    rw [List.getLastD_cons]
    rcases List.mem_cons.mp hx with rfl | hx
    · exact le_trans (hhead _ (getLastD_mem_cons t' b)) (le_refl _)
    · exact ih b htail x hx

theorem pairwise_le_getLastD (l : List ℕ) (hp : List.Pairwise (· ≤ ·) l) :
    ∀ x ∈ l, x ≤ l.getLastD 0 := by
  cases l with
  | nil => intro x hx; simp at hx
  | cons a t =>
    rw [List.getLastD_cons]
    exact pairwise_le_getLastD_cons t a hp

theorem mergeSort_nat_pairwise (l : List ℕ) :
    List.Pairwise (· ≤ ·) (l.mergeSort fun a b => decide (a ≤ b)) := by
  have h := @List.sorted_mergeSort ℕ (fun a b => decide (a ≤ b))
    (fun a b c hab hbc => by simp at hab hbc ⊢; omega)
    (fun a b => by simp [Bool.or_eq_true]; omega) l
  exact h.imp fun hab => of_decide_eq_true hab

theorem validIndices_lt (n : ℕ) (item : MapItem) :
    ∀ i ∈ validIndices n item, i < n := by
  intro i hi
  unfold validIndices at hi
  simp only [List.mem_map, List.mem_filter] at hi
  obtain ⟨j, ⟨hj, hcond⟩, rfl⟩ := hi
  simp only [Bool.and_eq_true, decide_eq_true_eq] at hcond
  omega

theorem validIndices_spec (n : ℕ) (item : MapItem) :
    validIndices n item
      = ((item.original_block_indices.filter fun j =>
          decide (1 ≤ j) && decide (j ≤ (n : ℤ))).map fun j => (j - 1).toNat) := by
  unfold validIndices
  rw [List.filter_map, List.map_map]
  have hfil : (item.original_block_indices.filter
        ((fun idx => decide (0 ≤ idx) && decide (idx < (n : ℤ))) ∘ fun j => j - 1))
      = item.original_block_indices.filter fun j => decide (1 ≤ j) && decide (j ≤ (n : ℤ)) := by
    apply List.filter_congr
    intro j _
    simp only [Function.comp]
    rw [Bool.eq_iff_iff]
    simp only [Bool.and_eq_true, decide_eq_true_eq]
    omega
  rw [hfil]
  rfl

theorem refineRecord_none_iff (blocks : List SplitBlock) (rm : RefinementMapping)
    (crop : Box → String) (now : ℕ) (item : MapItem) :
    refineRecord blocks rm crop now item = none ↔
      validIndices blocks.length item = [] := by
  unfold refineRecord
  by_cases he : (validIndices blocks.length item).isEmpty
  · rw [if_pos he]
    simp [List.isEmpty_iff.mp he]
  · rw [if_neg he]
    constructor
    · intro h; exact absurd h (by simp)
    · intro h; exact absurd (List.isEmpty_iff.mpr h) he

theorem refineRecord_some_box (blocks : List SplitBlock) (rm : RefinementMapping)
    (crop : Box → String) (now : ℕ) (item : MapItem) (b : SplitBlock)
    (h : refineRecord blocks rm crop now item = some b) :
    ∃ s e, s ∈ validIndices blocks.length item
      ∧ e ∈ validIndices blocks.length item
      ∧ (∀ i ∈ validIndices blocks.length item, s ≤ i ∧ i ≤ e)
      ∧ b.box = ⟨(blocks.getD s dummyBlock).box.ymin, 0,
          (blocks.getD e dummyBlock).box.ymax, 1000⟩ := by
  unfold refineRecord at h
  by_cases he : (validIndices blocks.length item).isEmpty
  · rw [if_pos he] at h
    exact absurd h (by simp)
  · rw [if_neg he] at h
    have hLne : validIndices blocks.length item ≠ [] := fun hh =>
      he (List.isEmpty_iff.mpr hh)
    have hSperm := List.mergeSort_perm (validIndices blocks.length item)
      (fun a b => decide (a ≤ b))
    have hSne : (validIndices blocks.length item).mergeSort
        (fun a b => decide (a ≤ b)) ≠ [] := by
      intro hh
      have := hSperm.length_eq
      rw [hh] at this
      exact hLne (List.length_eq_zero.mp this.symm)
    have hpair := mergeSort_nat_pairwise (validIndices blocks.length item)
    refine ⟨((validIndices blocks.length item).mergeSort
        (fun a b => decide (a ≤ b))).headD 0,
      ((validIndices blocks.length item).mergeSort
        (fun a b => decide (a ≤ b))).getLastD 0, ?_, ?_, ?_, ?_⟩
    · exact (List.mem_mergeSort).mp (headD_mem _ hSne 0)
    · exact (List.mem_mergeSort).mp (getLastD_mem _ hSne 0)
    · intro i hi
      have hiS : i ∈ (validIndices blocks.length item).mergeSort
          (fun a b => decide (a ≤ b)) := (List.mem_mergeSort).mpr hi
      exact ⟨pairwise_headD_le _ hpair i hiS, pairwise_le_getLastD _ hpair i hiS⟩
    · injection h with hb
      rw [← hb]

/-- **C1.** In the refinement merge, every accepted MappingRecord yields a
refined segment present in the final list whose box spans from the least
`ymin` to the greatest `ymax` of the mapped pixel segments with the full width
forced (`xmin = 0`, `xmax = 1000`); 1-based indices outside `[1, segmentCount]`
are discarded; a record with no valid index yields no segment; pixel segments
never referenced are carried through with their original box; and the final
list is sorted ascending by `ymin`.  The monotonicity hypothesis is the pixel
pipeline's ordering invariant (blocks listed top to bottom). -/
theorem c1_refine_union_merge (blocks : List SplitBlock) (rm : RefinementMapping)
    (crop : Box → String) (now : ℕ)
    (hmono : ∀ j, j < blocks.length → ∀ i, i < j + 1 →
      (blocks.getD i dummyBlock).box.ymin ≤ (blocks.getD j dummyBlock).box.ymin
      ∧ (blocks.getD i dummyBlock).box.ymax ≤ (blocks.getD j dummyBlock).box.ymax) :
    (∀ item ∈ rm.mapping, ∀ b, refineRecord blocks rm crop now item = some b →
      b ∈ handleRefineMerge blocks rm crop now
      ∧ b.box.xmin = 0 ∧ b.box.xmax = 1000
      ∧ (∃ i ∈ validIndices blocks.length item,
          b.box.ymin = (blocks.getD i dummyBlock).box.ymin)
      ∧ (∀ i ∈ validIndices blocks.length item,
          b.box.ymin ≤ (blocks.getD i dummyBlock).box.ymin)
      ∧ (∃ i ∈ validIndices blocks.length item,
          b.box.ymax = (blocks.getD i dummyBlock).box.ymax)
      ∧ (∀ i ∈ validIndices blocks.length item,
          (blocks.getD i dummyBlock).box.ymax ≤ b.box.ymax))
    ∧ (∀ item, refineRecord blocks rm crop now item = none ↔
        validIndices blocks.length item = [])
    ∧ (∀ item, validIndices blocks.length item
        = ((item.original_block_indices.filter fun j =>
            decide (1 ≤ j) && decide (j ≤ (blocks.length : ℤ))).map fun j => (j - 1).toNat))
    ∧ (∀ i, i < blocks.length →
        (usedIndices blocks.length rm.mapping).contains i = false →
        ∃ b ∈ handleRefineMerge blocks rm crop now,
          b.box = (blocks.getD i dummyBlock).box ∧ b.source = .refined)
    ∧ List.Sorted (fun a b : SplitBlock => a.box.ymin ≤ b.box.ymin)
        (handleRefineMerge blocks rm crop now) := by
  refine ⟨?_, ?_, ?_, ?_, ?_⟩
  · intro item hitem b hb
    obtain ⟨s, e, hsmem, hemem, hrange, hbox⟩ :=
      refineRecord_some_box blocks rm crop now item b hb
    have hslt := validIndices_lt blocks.length item s hsmem
    have helt := validIndices_lt blocks.length item e hemem
    refine ⟨?_, ?_, ?_, ?_, ?_, ?_, ?_⟩
    · simp only [handleRefineMerge]
      rw [List.mem_mergeSort]
      exact List.mem_append_left _ (List.mem_filterMap.mpr ⟨item, hitem, hb⟩)
    · rw [hbox]
    · rw [hbox]
    · exact ⟨s, hsmem, by rw [hbox]⟩
    · intro i hi
      have hilt := validIndices_lt blocks.length item i hi
      have hsi : s ≤ i := (hrange i hi).1
      rw [hbox]
      exact (hmono i hilt s (by omega)).1
    · exact ⟨e, hemem, by rw [hbox]⟩
    · intro i hi
      have hie : i ≤ e := (hrange i hi).2
      rw [hbox]
      exact (hmono e helt i (by omega)).2
  · intro item
    exact refineRecord_none_iff blocks rm crop now item
  · intro item
    exact validIndices_spec blocks.length item
  · intro i hi hnot
    have hlen : i < blocks.enum.length := by
      rw [List.enum_length]
      exact hi
    have hmem0 := List.getElem_mem hlen
    rw [List.getElem_enum] at hmem0
    have hgetd : blocks[i] = blocks.getD i dummyBlock :=
      (List.getD_eq_getElem blocks dummyBlock hi).symm
    rw [hgetd] at hmem0
    have hmemf : (i, blocks.getD i dummyBlock) ∈ blocks.enum.filter
        fun p => ¬ (usedIndices blocks.length rm.mapping).contains p.1 := by
      refine List.mem_filter.mpr ⟨hmem0, ?_⟩
      simp only [decide_eq_true_eq]
      simpa using hnot
    refine ⟨{ blocks.getD i dummyBlock with
        id := "refined-raw-" ++ toString i
        label := "内容块 " ++ toString (i + 1) ++ " (未映射)"
        source := .refined }, ?_, rfl, rfl⟩
    simp only [handleRefineMerge]
    rw [List.mem_mergeSort]
    refine List.mem_append_right _ ?_
    have := List.mem_map_of_mem (fun p : ℕ × SplitBlock =>
      { p.2 with
          id := "refined-raw-" ++ toString p.1
          label := "内容块 " ++ toString (p.1 + 1) ++ " (未映射)"
          source := Source.refined }) hmemf
    simpa using this
  · simp only [handleRefineMerge]
    have h := @List.sorted_mergeSort SplitBlock
      (fun a b => decide (a.box.ymin ≤ b.box.ymin))
      (fun a b c hab hbc => by
        simp only [decide_eq_true_eq] at hab hbc ⊢
        exact le_trans hab hbc)
      (fun a b => by
        simp only [Bool.or_eq_true, decide_eq_true_eq]
        exact le_total _ _)
      (rm.mapping.filterMap (refineRecord blocks rm crop now)
        ++ (blocks.enum.filter fun p =>
            ¬ (usedIndices blocks.length rm.mapping).contains p.1).map fun p =>
          { p.2 with
              id := "refined-raw-" ++ toString p.1
              label := "内容块 " ++ toString (p.1 + 1) ++ " (未映射)"
              source := Source.refined })
    exact h.imp fun hab => of_decide_eq_true hab

/-- The three pixel segments of the union-merge example of spec §8.5:
spans (0,100), (100,250), (400,500), full width. -/
def exBlocks : List SplitBlock :=
  [{ id := "block-0-0", label := "A", box := ⟨0, 0, 100, 1000⟩,
      dataUrl := some "u0", source := .pixel },
    { id := "block-0-1", label := "B", box := ⟨100, 0, 250, 1000⟩,
      dataUrl := some "u1", source := .pixel },
    { id := "block-0-2", label := "C", box := ⟨400, 0, 500, 1000⟩,
      dataUrl := some "u2", source := .pixel }]

/-- A single MappingRecord referencing indices {1, 2}. -/
def exMapping : RefinementMapping :=
  { result := [], mapping := [⟨1, [1, 2]⟩] }

/-- The merged segment the example should produce: box (0, 250), full width. -/
def exMergedBlock : SplitBlock :=
  { id := "refined-" ++ toString (0 : ℕ) ++ "-" ++ toString (1 : ℤ)
    label := refinedLabel exMapping 1
    box := ⟨0, 0, 250, 1000⟩
    dataUrl := some ""
    source := .refined }

/-- The carried-through third segment of the example: box (400, 500). -/
def exCarriedBlock : SplitBlock :=
  { id := "refined-raw-" ++ toString (2 : ℕ)
    label := "内容块 " ++ toString (2 + 1 : ℕ) ++ " (未映射)"
    box := ⟨400, 0, 500, 1000⟩
    dataUrl := some "u2"
    source := .refined }

theorem c1_refine_union_merge_witness :
    ((handleRefineMerge exBlocks exMapping (fun _ => "") 0).map (·.box)
      = [⟨0, 0, 250, 1000⟩, ⟨400, 0, 500, 1000⟩])
    ∧ List.Sorted (fun a b : SplitBlock => a.box.ymin ≤ b.box.ymin)
        (handleRefineMerge exBlocks exMapping (fun _ => "") 0) := by
  have hvi : validIndices exBlocks.length ⟨1, [1, 2]⟩ = [0, 1] := by decide
  have hms : (([0, 1] : List ℕ).mergeSort fun a b => decide (a ≤ b)) = [0, 1] :=
    List.mergeSort_of_sorted (by simp)
  have hrr : refineRecord exBlocks exMapping (fun _ => "") 0 ⟨1, [1, 2]⟩
      = some exMergedBlock := by
    simp only [refineRecord, hvi, hms]
    decide
  have hmerged : exMapping.mapping.filterMap
      (refineRecord exBlocks exMapping (fun _ => "") 0) = [exMergedBlock] := by
    show List.filterMap _ [(⟨1, [1, 2]⟩ : MapItem)] = _
    simp [List.filterMap_cons, hrr]
  have hcarried : ((exBlocks.enum.filter fun p =>
        ¬ (usedIndices exBlocks.length exMapping.mapping).contains p.1).map fun p =>
      { p.2 with
          id := "refined-raw-" ++ toString p.1
          label := "内容块 " ++ toString (p.1 + 1) ++ " (未映射)"
          source := Source.refined }) = [exCarriedBlock] := by
    decide
  have hs2 : (([exMergedBlock] ++ [exCarriedBlock]).mergeSort
        fun a b => decide (a.box.ymin ≤ b.box.ymin))
      = [exMergedBlock, exCarriedBlock] := by
    apply List.mergeSort_of_sorted
    rw [List.singleton_append]
    refine List.pairwise_cons.mpr ⟨?_, List.pairwise_singleton _ _⟩
    intro b hb
    rw [List.mem_singleton] at hb
    subst hb
    decide
  constructor
  · simp only [handleRefineMerge, hmerged, hcarried, hs2]
    decide
  · exact (c1_refine_union_merge exBlocks exMapping (fun _ => "") 0
      (by decide)).2.2.2.2

/-- The acceptance test a content run must pass to become a valid block:
tall enough and judged meaningful. -/
def runAccepted (accept : ℕ → ℕ → Bool) (mp : ℚ) (r : Run) : Bool :=
  decide (((r.stop - r.start : ℕ) : ℚ) ≥ mp) && accept r.start r.stop

theorem classifyRuns_parts (accept : ℕ → ℕ → Bool) (h : ℕ) (mp : ℚ) (now : ℕ)
    (rs : List Run) :
    ∀ acc : List SplitBlock × List SplitBlock × List SplitBlock,
      ((rs.foldl (classifyStep accept h mp now) acc).1.map (·.box)
        = acc.1.map (·.box)
          ++ ((rs.filter fun r => !r.isSep && runAccepted accept mp r).map
            fun r => mkRunBox h r.start r.stop))
      ∧ ((rs.foldl (classifyStep accept h mp now) acc).2.1.map (·.box)
        = acc.2.1.map (·.box)
          ++ ((rs.filter fun r => !r.isSep && !runAccepted accept mp r).map
            fun r => mkRunBox h r.start r.stop))
      ∧ ((rs.foldl (classifyStep accept h mp now) acc).2.2.map (·.box)
        = acc.2.2.map (·.box)
          ++ ((rs.filter fun r => r.isSep).map fun r => mkRunBox h r.start r.stop)) := by
  induction rs with
  | nil => intro acc; simp
  | cons r rs ih =>
    intro acc
    obtain ⟨v, iv, sp⟩ := acc
    simp only [List.foldl_cons, List.filter_cons]
    by_cases hsep : r.isSep
    · have hstep : classifyStep accept h mp now (v, iv, sp) r
          = (v, iv, sp ++ [mkSepBlock h now sp.length r.start r.stop]) := by
        simp [classifyStep, hsep]
      rw [hstep]
      obtain ⟨i1, i2, i3⟩ := ih (v, iv, sp ++ [mkSepBlock h now sp.length r.start r.stop])
      refine ⟨?_, ?_, ?_⟩
      · simpa [hsep] using i1
      · simpa [hsep] using i2
      · rw [i3]
        simp [hsep, mkSepBlock, List.append_assoc]
    · by_cases hacc : runAccepted accept mp r
      · have hstep : classifyStep accept h mp now (v, iv, sp) r
            = (v ++ [mkValidBlock h now v.length r.start r.stop], iv, sp) := by
          simp only [classifyStep, hsep, Bool.false_eq_true, if_neg, not_false_iff]
          rw [if_pos]
          exact hacc
        rw [hstep]
        obtain ⟨i1, i2, i3⟩ := ih (v ++ [mkValidBlock h now v.length r.start r.stop], iv, sp)
        refine ⟨?_, ?_, ?_⟩
        · rw [i1]
          simp [hsep, hacc, mkValidBlock, List.append_assoc]
        · simpa [hsep, hacc] using i2
        · simpa [hsep] using i3
      · have hstep : classifyStep accept h mp now (v, iv, sp) r
            = (v, iv ++ [mkInvalidBlock h now iv.length r.start r.stop], sp) := by
          simp only [classifyStep, hsep, Bool.false_eq_true, if_neg, not_false_iff]
          rw [if_neg]
          exact fun hc => hacc hc
        rw [hstep]
        obtain ⟨i1, i2, i3⟩ := ih (v, iv ++ [mkInvalidBlock h now iv.length r.start r.stop], sp)
        refine ⟨?_, ?_, ?_⟩
        · simpa [hsep, hacc] using i1
        · rw [i2]
          simp [hsep, hacc, mkInvalidBlock, List.append_assoc]
        · simpa [hsep] using i3

theorem list_sum_all_eq : ∀ (l : List ℚ) (v : ℚ), (∀ x ∈ l, x = v) →
    l.sum = l.length * v := by
  intro l
  induction l with
  | nil => intro v _; simp
  | cons a t ih =>
    intro v h
    have ha := h a (by simp)
    rw [List.sum_cons, ih v fun x hx => h x (List.mem_cons_of_mem a hx), ha]
    push_cast [List.length_cons]
    ring

theorem calculateVariance_const (l : List ℤ) (v : ℤ) (h : ∀ x ∈ l, x = v) :
    calculateVariance l = 0 := by
  by_cases hl : l.length = 0
  · simp [calculateVariance, hl]
  · have hcast : ∀ x ∈ l.map (fun w : ℤ => (Int.cast w : ℚ)), x = (v : ℚ) := by
      intro x hx
      obtain ⟨y, hy, rfl⟩ := List.mem_map.mp hx
      exact_mod_cast congrArg (fun w : ℤ => (w : ℚ)) (h y hy)
    have hsum : (l.map fun w : ℤ => (Int.cast w : ℚ)).sum = l.length * v := by
      rw [list_sum_all_eq _ _ hcast]
      simp
    have hmean : (l.map fun w : ℤ => (Int.cast w : ℚ)).foldl (· + ·) 0 / (l.length : ℚ)
        = (v : ℚ) := by
      rw [← List.sum_eq_foldl, hsum]
      field_simp
    unfold calculateVariance
    rw [if_neg hl]
    simp only []
    rw [foldl_add_eq (fun w => (w - ((l.map fun w : ℤ => (Int.cast w : ℚ)).foldl (· + ·) 0
      / (l.length : ℚ))) ^ 2) (l.map fun w : ℤ => (Int.cast w : ℚ)) 0]
    have hz : ((l.map fun w : ℤ => (Int.cast w : ℚ)).map fun w =>
        (w - ((l.map fun w : ℤ => (Int.cast w : ℚ)).foldl (· + ·) 0
          / (l.length : ℚ))) ^ 2).sum = 0 := by
      apply List.sum_eq_zero
      intro x hx
      obtain ⟨y, hy, rfl⟩ := List.mem_map.mp hx
      rw [hcast y hy, hmean]
      ring
    rw [zero_add, hz]
    simp

theorem dedup_length_le_one {α : Type} [DecidableEq α] (l : List α) (c : α)
    (h : ∀ x ∈ l, x = c) : l.dedup.length ≤ 1 := by
  rcases hd : l.dedup with _ | ⟨a, t⟩
  · simp
  · have hnd := l.nodup_dedup
    rw [hd] at hnd
    have hall : ∀ x ∈ a :: t, x = c := by
      intro x hx
      apply h
      rw [show (x ∈ l) = (x ∈ l.dedup) from (propext List.mem_dedup).symm, hd]
      exact hx
    cases t with
    | nil => simp
    | cons b t' =>
      have hnc := List.nodup_cons.mp hnd
      have hab : a ≠ b := fun he => hnc.1 (he ▸ List.mem_cons_self b t')
      have ha := hall a (by simp)
      have hb := hall b (by simp)
      exact absurd (ha.trans hb.symm) hab

theorem isBlockMeaningful_many_colors (ds : Img → ℕ → ℕ → Img) (img : Img)
    (y1 y2 : ℕ) (t : ℚ)
    (h : 20 < ((((blockPixels img y1 y2).filter fun p => p.a ≠ 0).map
        fun p => (p.r, p.g, p.b)).dedup.length)) :
    isBlockMeaningful ds img y1 y2 t = true := by
  unfold isBlockMeaningful
  rw [if_pos h]

theorem isBlockMeaningful_uniform (ds : Img → ℕ → ℕ → Img) (img : Img)
    (y1 y2 : ℕ) (t : ℚ) (c : Pixel)
    (hw1 : 0 < img.width) (hw : img.width ≤ 128)
    (hpos : y1 < y2) (hbh : y2 - y1 ≤ 128)
    (hc : ∀ p ∈ blockPixels img y1 y2, p = c) (hca : c.a ≠ 0) :
    isBlockMeaningful ds img y1 y2 t = false := by
  have hOpq : ∀ p ∈ (blockPixels img y1 y2).filter fun p => p.a ≠ 0, p = c :=
    fun p hp => hc p (List.mem_of_mem_filter hp)
  have hcolors : ((((blockPixels img y1 y2).filter fun p => p.a ≠ 0).map
      fun p => (p.r, p.g, p.b)).dedup.length) ≤ 1 := by
    apply dedup_length_le_one _ (c.r, c.g, c.b)
    intro x hx
    obtain ⟨p, hp, rfl⟩ := List.mem_map.mp hx
    rw [hOpq p hp]
  have hvar : calculateVariance (((blockPixels img y1 y2).filter fun p => p.a ≠ 0).map
      fun p => jsRound (((p.r : ℚ) + p.g + p.b) / 3)) = 0 := by
    apply calculateVariance_const _ (jsRound (((c.r : ℚ) + c.g + c.b) / 3))
    intro x hx
    obtain ⟨p, hp, rfl⟩ := List.mem_map.mp hx
    rw [hOpq p hp]
  have hscale : ¬ (min (128 / (img.width : ℚ)) (128 / ((y2 - y1 : ℕ) : ℚ)) < 1) := by
    rw [not_lt]
    refine le_min ?_ ?_
    · rw [one_le_div (by exact_mod_cast hw1)]
      exact_mod_cast hw
    · rw [one_le_div (by exact_mod_cast Nat.sub_pos_of_lt hpos)]
      exact_mod_cast hbh
  unfold isBlockMeaningful
  rw [if_neg (by omega), if_neg (by rw [hvar]; norm_num), if_neg hscale]

/-- A 21 × 1 row with 21 distinct exact colors, all opaque. -/
def img21 : Img :=
  { width := 21, height := 1, pix := fun x _ => ⟨x, 0, 0, 255⟩ }

/-- A 2 × 2 perfectly uniform opaque black image. -/
def uniformImg : Img :=
  { width := 2, height := 2, pix := fun _ _ => ⟨0, 0, 0, 255⟩ }

/-- A stand-in for the browser downsampler; never reached in the witness. -/
def dsEx : Img → ℕ → ℕ → Img := fun _ _ _ => oneWhiteImg

/-- A 1 × 200 perfectly uniform opaque black image, tall enough to reach the
connected-component pass. -/
def tallUniformImg : Img :=
  { width := 1, height := 200, pix := fun _ _ => ⟨0, 0, 0, 255⟩ }

/-- A stand-in downsampler returning the uniform 2 × 2 image. -/
def dsU : Img → ℕ → ℕ → Img := fun _ _ _ => uniformImg

theorem cellIdx_lt (mini : Img) (q : ℕ × ℕ) (hq : validCell mini q) :
    cellIdx mini q < mini.width * mini.height := by
  obtain ⟨hx, hy⟩ := hq
  unfold cellIdx
  calc q.2 * mini.width + q.1 < q.2 * mini.width + mini.width := by omega
    _ = (q.2 + 1) * mini.width := by ring
    _ ≤ mini.height * mini.width := Nat.mul_le_mul_right _ (by omega)
    _ = mini.width * mini.height := Nat.mul_comm _ _

theorem cellIdx_inj (mini : Img) (p q : ℕ × ℕ) (hp : validCell mini p)
    (hq : validCell mini q) (h : cellIdx mini p = cellIdx mini q) : p = q := by
  obtain ⟨hpx, hpy⟩ := hp
  obtain ⟨hqx, hqy⟩ := hq
  unfold cellIdx at h
  have hw : 0 < mini.width := by omega
  have hx : p.1 = q.1 := by
    have h1 := congrArg (· % mini.width) h
    simpa [Nat.mul_add_mod, Nat.add_mul_mod_self_left, Nat.mod_eq_of_lt hpx,
      Nat.mod_eq_of_lt hqx, Nat.add_comm] using h1
  have hy : p.2 = q.2 := by
    have h2 : p.2 * mini.width = q.2 * mini.width := by omega
    exact Nat.eq_of_mul_eq_mul_right hw h2
  exact Prod.ext hx hy

/-- On a uniform opaque grid, one neighbor-offset step either leaves the state
unchanged — and then the targeted neighbor, if it exists in the grid, is
already visited — or appends exactly one in-bounds, previously unvisited
neighbor to both the queue and the visited list. -/
theorem bfsStep_cases (mini : Img) (c : Pixel) (hu : UniformOpaque mini c)
    (cx cy : ℕ) (hcv : validCell mini (cx, cy))
    (st : List (ℕ × ℕ) × List ℕ) (d : ℤ × ℤ) :
    (bfsStep mini cx cy st d = st
      ∧ ∀ a : ℕ × ℕ, validCell mini a → (cx : ℤ) + d.1 = (a.1 : ℤ) →
          (cy : ℤ) + d.2 = (a.2 : ℤ) → cellIdx mini a ∈ st.2)
    ∨ ∃ nxn nyn : ℕ, (cx : ℤ) + d.1 = (nxn : ℤ) ∧ (cy : ℤ) + d.2 = (nyn : ℤ)
        ∧ nxn < mini.width ∧ nyn < mini.height
        ∧ cellIdx mini (nxn, nyn) ∉ st.2
        ∧ bfsStep mini cx cy st d
          = (st.1 ++ [(nxn, nyn)], st.2 ++ [cellIdx mini (nxn, nyn)]) := by
  obtain ⟨q, vis⟩ := st
  by_cases hinb : 0 ≤ (cx : ℤ) + d.1 ∧ (cx : ℤ) + d.1 < (mini.width : ℤ)
      ∧ 0 ≤ (cy : ℤ) + d.2 ∧ (cy : ℤ) + d.2 < (mini.height : ℤ)
  case neg =>
    left
    constructor
    · dsimp only [bfsStep]
      rw [if_neg hinb]
    · intro a hv h1 h2
      exfalso
      have hva : a.1 < mini.width := hv.1
      have hvb : a.2 < mini.height := hv.2
      exact hinb ⟨by omega, by omega, by omega, by omega⟩
  case pos =>
    obtain ⟨h1, h2, h3, h4⟩ := hinb
    set nxn := ((cx : ℤ) + d.1).toNat with hnx
    set nyn := ((cy : ℤ) + d.2).toNat with hny
    have hxn : (cx : ℤ) + d.1 = (nxn : ℤ) := by omega
    have hyn : (cy : ℤ) + d.2 = (nyn : ℤ) := by omega
    have hxb : nxn < mini.width := by omega
    have hyb : nyn < mini.height := by omega
    have hpix : mini.pix nxn nyn = c := hu.2 nxn nyn hxb hyb
    have hpixc : mini.pix cx cy = c := hu.2 cx cy hcv.1 hcv.2
    by_cases hseen : vis.contains (nyn * mini.width + nxn)
    · left
      constructor
      · dsimp only [bfsStep]
        rw [if_pos ⟨h1, h2, h3, h4⟩]
        simp only [← hnx, ← hny]
        rw [if_neg]
        exact fun hc => hc.1 hseen
      · intro a hv ha1 ha2
        have hax : a.1 = nxn := by omega
        have hay : a.2 = nyn := by omega
        have hcell : cellIdx mini a = nyn * mini.width + nxn := by
          unfold cellIdx
          rw [hax, hay]
        rw [hcell]
        exact List.elem_iff.mp hseen
    · right
      refine ⟨nxn, nyn, hxn, hyn, hxb, hyb, ?_, ?_⟩
      · intro hmem
        exact hseen (List.elem_iff.mpr hmem)
      · have hcond2 : ¬ vis.contains (nyn * mini.width + nxn) = true
            ∧ (mini.pix nxn nyn).a > 0 :=
          ⟨hseen, by rw [hpix]; exact Nat.pos_of_ne_zero hu.1⟩
        have hcond3 : |ccaGray (mini.pix cx cy) - ccaGray (mini.pix nxn nyn)| ≤ 5 := by
          rw [hpix, hpixc]
          simp
        dsimp only [bfsStep]
        rw [if_pos ⟨h1, h2, h3, h4⟩]
        simp only [← hnx, ← hny]
        rw [if_pos hcond2, if_pos hcond3]
        simp [cellIdx]

/-- Folding BFS neighbor steps over an offset list on a uniform opaque grid
appends a list `app` of fresh valid cells to the queue and their indices to the
visited list; afterwards every in-grid cell targeted by one of the offsets is
visited. -/
theorem bfsFold_spec (mini : Img) (c : Pixel) (hu : UniformOpaque mini c)
    (cx cy : ℕ) (hcv : validCell mini (cx, cy)) (L : List (ℤ × ℤ)) :
    ∀ (q : List (ℕ × ℕ)) (vis : List ℕ),
    ∃ app : List (ℕ × ℕ),
      L.foldl (bfsStep mini cx cy) (q, vis)
        = (q ++ app, vis ++ app.map (cellIdx mini))
      ∧ (∀ a ∈ app, validCell mini a)
      ∧ (app.map (cellIdx mini)).Nodup
      ∧ (∀ a ∈ app, cellIdx mini a ∉ vis)
      ∧ ∀ d ∈ L, ∀ a : ℕ × ℕ, validCell mini a →
          (cx : ℤ) + d.1 = (a.1 : ℤ) → (cy : ℤ) + d.2 = (a.2 : ℤ) →
          cellIdx mini a ∈ vis ++ app.map (cellIdx mini) := by
  induction L with
  | nil =>
    intro q vis
    exact ⟨[], by simp, by simp, by simp, by simp, by simp⟩
  | cons d L ih =>
    intro q vis
    rcases bfsStep_cases mini c hu cx cy hcv (q, vis) d with
      ⟨heq, hcov⟩ | ⟨nxn, nyn, hx, hy, hxb, hyb, hfresh, heq⟩
    · obtain ⟨app, hfold, hval, hnd, hfr, hcv2⟩ := ih q vis
      refine ⟨app, ?_, hval, hnd, hfr, ?_⟩
      · rw [List.foldl_cons, heq, hfold]
      · intro e he a hva h1 h2
        rcases List.mem_cons.mp he with rfl | he
        · exact List.mem_append_left _ (hcov a hva h1 h2)
        · exact hcv2 e he a hva h1 h2
    · obtain ⟨app, hfold, hval, hnd, hfr, hcv2⟩ :=
        ih (q ++ [(nxn, nyn)]) (vis ++ [cellIdx mini (nxn, nyn)])
      refine ⟨(nxn, nyn) :: app, ?_, ?_, ?_, ?_, ?_⟩
      · rw [List.foldl_cons, heq, hfold]
        simp [List.append_assoc]
      · intro a ha
        rcases List.mem_cons.mp ha with rfl | ha
        · exact ⟨hxb, hyb⟩
        · exact hval a ha
      · simp only [List.map_cons, List.nodup_cons]
        refine ⟨?_, hnd⟩
        intro hmem
        obtain ⟨b, hb, hbe⟩ := List.mem_map.mp hmem
        exact hfr b hb (by
          rw [hbe]
          exact List.mem_append_right _ (List.mem_singleton.mpr rfl))
      · intro a ha
        rcases List.mem_cons.mp ha with rfl | ha
        · exact hfresh
        · exact fun hmem => hfr a ha (List.mem_append_left _ hmem)
      · intro e he a hva h1 h2
        rcases List.mem_cons.mp he with rfl | he
        · have hax : a.1 = nxn := by omega
          have hay : a.2 = nyn := by omega
          have haeq : a = (nxn, nyn) := Prod.ext hax hay
          rw [haeq]
          simp
        · have := hcv2 e he a hva h1 h2
          simpa [List.append_assoc] using this

theorem length_le_of_nodup_lt (l : List ℕ) (n : ℕ) (hnd : l.Nodup)
    (hlt : ∀ v ∈ l, v < n) : l.length ≤ n := by
  have h1 : l.toFinset ⊆ Finset.range n := by
    intro v hv
    exact Finset.mem_range.mpr (hlt v (List.mem_toFinset.mp hv))
  have h2 := Finset.card_le_card h1
  rw [Finset.card_range] at h2
  rwa [List.toFinset_card_of_nodup hnd] at h2

/-- With fuel at least `width * height - cnt`, the BFS on a uniform opaque
grid drains its queue: the final visited list extends the initial one, its
length equals the returned count, it stays duplicate-free with valid indices,
and it is closed under the 8 neighbor offsets. -/
theorem bfsAux_uniform (mini : Img) (c : Pixel) (hu : UniformOpaque mini c) :
    ∀ (fuel : ℕ) (queue : List (ℕ × ℕ)) (visited : List ℕ) (cnt : ℕ),
      BfsInv mini queue visited cnt →
      mini.width * mini.height ≤ fuel + cnt →
      (∀ v ∈ visited, v ∈ (bfsAux mini fuel queue visited cnt).1)
      ∧ (bfsAux mini fuel queue visited cnt).1.length
          = (bfsAux mini fuel queue visited cnt).2
      ∧ (bfsAux mini fuel queue visited cnt).1.Nodup
      ∧ (∀ v ∈ (bfsAux mini fuel queue visited cnt).1,
          ∃ p, validCell mini p ∧ cellIdx mini p = v)
      ∧ (∀ p : ℕ × ℕ, validCell mini p →
          cellIdx mini p ∈ (bfsAux mini fuel queue visited cnt).1 →
          ∀ d ∈ neighborOffsets, ∀ a : ℕ × ℕ, validCell mini a →
            (p.1 : ℤ) + d.1 = (a.1 : ℤ) → (p.2 : ℤ) + d.2 = (a.2 : ℤ) →
            cellIdx mini a ∈ (bfsAux mini fuel queue visited cnt).1) := by
  intro fuel
  induction fuel with
  | zero =>
    intro queue visited cnt inv hfuel
    have hbound : visited.length ≤ mini.width * mini.height := by
      refine length_le_of_nodup_lt _ _ inv.vNodup ?_
      intro v hv
      obtain ⟨p, hp, he⟩ := inv.vValid v hv
      rw [← he]
      exact cellIdx_lt mini p hp
    have hq0 : queue.length = 0 := by
      have := inv.vLen
      omega
    have hcnt : (bfsAux mini 0 queue visited cnt).1 = visited
        ∧ (bfsAux mini 0 queue visited cnt).2 = cnt := by
      simp [bfsAux]
    rw [hcnt.1, hcnt.2]
    refine ⟨fun v hv => hv, by have := inv.vLen; omega, inv.vNodup, inv.vValid, ?_⟩
    intro p hp hmem d hd a hva h1 h2
    rcases inv.closed p hp hmem with hpq | hcl
    · exact absurd (List.length_pos_of_mem hpq) (by omega)
    · exact hcl d hd a hva h1 h2
  | succ f ih =>
    intro queue visited cnt inv hfuel
    match queue with
    | [] =>
      have hcnt : (bfsAux mini (f + 1) [] visited cnt).1 = visited
          ∧ (bfsAux mini (f + 1) [] visited cnt).2 = cnt := by
        simp [bfsAux]
      rw [hcnt.1, hcnt.2]
      refine ⟨fun v hv => hv, by have := inv.vLen; simp at this; omega,
        inv.vNodup, inv.vValid, ?_⟩
      intro p hp hmem d hd a hva h1 h2
      rcases inv.closed p hp hmem with hpq | hcl
      · exact absurd hpq (List.not_mem_nil p)
      · exact hcl d hd a hva h1 h2
    | (cx, cy) :: rest =>
      have hcv : validCell mini (cx, cy) :=
        inv.qValid (cx, cy) (List.mem_cons_self _ _)
      obtain ⟨app, hfold, hval, hnd, hfr, hcov⟩ :=
        bfsFold_spec mini c hu cx cy hcv neighborOffsets rest visited
      have hstep : bfsAux mini (f + 1) ((cx, cy) :: rest) visited cnt
          = bfsAux mini f (rest ++ app) (visited ++ app.map (cellIdx mini))
              (cnt + 1) := by
        show bfsAux mini f (bfsExpand mini cx cy rest visited).1
            (bfsExpand mini cx cy rest visited).2 (cnt + 1) = _
        rw [show bfsExpand mini cx cy rest visited
            = (rest ++ app, visited ++ app.map (cellIdx mini)) from hfold]
      have hinv2 : BfsInv mini (rest ++ app) (visited ++ app.map (cellIdx mini))
          (cnt + 1) := by
        constructor
        · intro p hp
          rcases List.mem_append.mp hp with hp | hp
          · exact inv.qValid p (List.mem_cons_of_mem _ hp)
          · exact hval p hp
        · intro p hp
          rcases List.mem_append.mp hp with hp | hp
          · exact List.mem_append_left _ (inv.qSeen p (List.mem_cons_of_mem _ hp))
          · exact List.mem_append_right _ (List.mem_map_of_mem _ hp)
        · refine List.Nodup.append inv.vNodup hnd ?_
          intro x hx1 hx2
          obtain ⟨b, hb, hbe⟩ := List.mem_map.mp hx2
          exact hfr b hb (hbe ▸ hx1)
        · intro v hv
          rcases List.mem_append.mp hv with hv | hv
          · exact inv.vValid v hv
          · obtain ⟨b, hb, hbe⟩ := List.mem_map.mp hv
            exact ⟨b, hval b hb, hbe⟩
        · have := inv.vLen
          simp only [List.length_append, List.length_map, List.length_cons] at this ⊢
          omega
        · intro p hp hmem
          rcases List.mem_append.mp hmem with hmem | hmem
          · rcases inv.closed p hp hmem with hpq | hcl
            · rcases List.mem_cons.mp hpq with rfl | hpq
              · right
                intro d hd a hva h1 h2
                exact hcov d hd a hva h1 h2
              · exact Or.inl (List.mem_append_left _ hpq)
            · right
              intro d hd a hva h1 h2
              exact List.mem_append_left _ (hcl d hd a hva h1 h2)
          · obtain ⟨b, hb, hbe⟩ := List.mem_map.mp hmem
            have hpb : p = b :=
              cellIdx_inj mini p b hp (hval b hb) hbe.symm
            exact Or.inl (List.mem_append_right _ (hpb ▸ hb))
      have hih := ih (rest ++ app) (visited ++ app.map (cellIdx mini)) (cnt + 1)
        hinv2 (by omega)
      rw [hstep]
      refine ⟨?_, hih.2.1, hih.2.2.1, hih.2.2.2.1, hih.2.2.2.2⟩
      intro v hv
      exact hih.1 v (List.mem_append_left _ hv)

/-- A visited set closed under the 8 neighbor offsets that contains the origin
covers the whole grid. -/
theorem coverage_of_closed (mini : Img) (V : List ℕ)
    (hH : 0 < mini.height)
    (h0 : cellIdx mini (0, 0) ∈ V)
    (hcl : ∀ p : ℕ × ℕ, validCell mini p → cellIdx mini p ∈ V →
      ∀ d ∈ neighborOffsets, ∀ a : ℕ × ℕ, validCell mini a →
        (p.1 : ℤ) + d.1 = (a.1 : ℤ) → (p.2 : ℤ) + d.2 = (a.2 : ℤ) →
        cellIdx mini a ∈ V) :
    ∀ x y, x < mini.width → y < mini.height → cellIdx mini (x, y) ∈ V := by
  have hd10 : ((1 : ℤ), (0 : ℤ)) ∈ neighborOffsets := by
    simp [neighborOffsets]
  have hd01 : ((0 : ℤ), (1 : ℤ)) ∈ neighborOffsets := by
    simp [neighborOffsets]
  have hrow : ∀ x, x < mini.width → cellIdx mini (x, 0) ∈ V := by
    intro x
    induction x with
    | zero => exact fun _ => h0
    | succ n ihn =>
      intro hx
      have hn : n < mini.width := by omega
      exact hcl (n, 0) ⟨hn, hH⟩ (ihn hn) (1, 0) hd10 (n + 1, 0) ⟨hx, hH⟩
        (by push_cast; try ring) (by push_cast; try ring)
  intro x
  intro y
  induction y with
  | zero => exact fun hx _ => hrow x hx
  | succ m ihm =>
    intro hx hy
    have hm : m < mini.height := by omega
    exact hcl (x, m) ⟨hx, hm⟩ (ihm hx hm) (0, 1) hd01 (x, m + 1) ⟨hx, hy⟩
      (by push_cast; try ring) (by push_cast; try ring)

/-- A duplicate-free visited list of valid cell indices that covers every grid
cell has exactly `width * height` entries. -/
theorem visited_complete (mini : Img) (V : List ℕ) (hW : 0 < mini.width)
    (hnd : V.Nodup)
    (hvv : ∀ v ∈ V, ∃ p, validCell mini p ∧ cellIdx mini p = v)
    (hcover : ∀ x y, x < mini.width → y < mini.height →
      cellIdx mini (x, y) ∈ V) :
    V.length = mini.width * mini.height := by
  have hsub : V.toFinset ⊆ Finset.range (mini.width * mini.height) := by
    intro v hv
    obtain ⟨p, hp, he⟩ := hvv v (List.mem_toFinset.mp hv)
    exact Finset.mem_range.mpr (he ▸ cellIdx_lt mini p hp)
  have hsup : Finset.range (mini.width * mini.height) ⊆ V.toFinset := by
    intro n hn
    rw [Finset.mem_range] at hn
    have hx : n % mini.width < mini.width := Nat.mod_lt _ hW
    have hy : n / mini.width < mini.height := by
      rcases Nat.lt_or_ge (n / mini.width) mini.height with h | h
      · exact h
      · have h2 : mini.width * mini.height ≤ n / mini.width * mini.width := by
          calc mini.width * mini.height ≤ mini.width * (n / mini.width) :=
              Nat.mul_le_mul_left _ h
            _ = n / mini.width * mini.width := Nat.mul_comm _ _
        have h3 : n / mini.width * mini.width ≤ n := Nat.div_mul_le_self n _
        exact absurd hn (Nat.not_lt.mpr (h2.trans h3))
    have hidx : cellIdx mini (n % mini.width, n / mini.width) = n := by
      show n / mini.width * mini.width + n % mini.width = n
      rw [Nat.mul_comm (n / mini.width) mini.width]
      exact Nat.div_add_mod n mini.width
    rw [List.mem_toFinset]
    have := hcover (n % mini.width) (n / mini.width) hx hy
    rwa [hidx] at this
  have heq : V.toFinset = Finset.range (mini.width * mini.height) :=
    Finset.Subset.antisymm hsub hsup
  rw [← List.toFinset_card_of_nodup hnd, heq, Finset.card_range]

/-- The component scan skips every coordinate whose index is already
visited (or whose pixel is transparent). -/
theorem ccaFold_skip (mini : Img) (V : List ℕ) (cc tot : ℕ) :
    ∀ l : List (ℕ × ℕ),
      (∀ p ∈ l, (mini.pix p.1 p.2).a = 0 ∨ V.contains (p.2 * mini.width + p.1)) →
      l.foldl (ccaFoldStep mini) (V, cc, tot) = (V, cc, tot) := by
  intro l
  induction l with
  | nil => intro _; rfl
  | cons p l ihl =>
    intro hall
    have hstep : ccaFoldStep mini (V, cc, tot) p = (V, cc, tot) := by
      dsimp only [ccaFoldStep]
      rw [if_pos (hall p (List.mem_cons_self _ _))]
    rw [List.foldl_cons, hstep]
    exact ihl fun p hp => hall p (List.mem_cons_of_mem _ hp)

/-- The row-major coordinate scan of a nonempty grid starts at the origin, and
all scanned coordinates are in bounds. -/
theorem coords_cons (W H : ℕ) (hW : 0 < W) (hH : 0 < H) :
    ∃ tail : List (ℕ × ℕ),
      (List.range H).flatMap (fun y => (List.range W).map fun x => (x, y))
        = (0, 0) :: tail
      ∧ ∀ p ∈ tail, p.1 < W ∧ p.2 < H := by
  have hmem : ∀ p : ℕ × ℕ,
      p ∈ (List.range H).flatMap (fun y => (List.range W).map fun x => (x, y)) →
      p.1 < W ∧ p.2 < H := by
    intro p hp
    simp only [List.mem_flatMap, List.mem_map, List.mem_range] at hp
    obtain ⟨y, hy, x, hx, rfl⟩ := hp
    exact ⟨hx, hy⟩
  obtain ⟨h', rfl⟩ := Nat.exists_eq_succ_of_ne_zero (Nat.pos_iff_ne_zero.mp hH)
  obtain ⟨w', rfl⟩ := Nat.exists_eq_succ_of_ne_zero (Nat.pos_iff_ne_zero.mp hW)
  have hhead : (List.range (w' + 1)).map (fun x => ((x : ℕ), (0 : ℕ)))
      = (0, 0) :: ((List.range w').map Nat.succ).map (fun x => (x, 0)) := by
    rw [List.range_succ_eq_map, List.map_cons]
  have hsplit : (List.range (h' + 1)).flatMap
        (fun y => (List.range (w' + 1)).map fun x => (x, y))
      = (0, 0) :: (((List.range w').map Nat.succ).map (fun x => (x, 0))
          ++ ((List.range h').map Nat.succ).flatMap
            (fun y => (List.range (w' + 1)).map fun x => (x, y))) := by
    rw [List.range_succ_eq_map, List.flatMap_cons, hhead, List.cons_append]
  exact ⟨_, hsplit, fun p hp => hmem p (hsplit ▸ List.mem_cons_of_mem _ hp)⟩

/-- On a nonempty uniform opaque grid the flood-fill scan finds exactly one
connected component covering every pixel. -/
theorem cca_uniform (mini : Img) (c : Pixel) (hu : UniformOpaque mini c)
    (hW : 0 < mini.width) (hH : 0 < mini.height) :
    calculateConnectedComponents mini = (1, mini.width * mini.height) := by
  obtain ⟨tail, hsplit, htail⟩ := coords_cons mini.width mini.height hW hH
  have hcell0 : cellIdx mini (0, 0) = 0 := by simp [cellIdx]
  have inv0 : BfsInv mini [(0, 0)] [0] 0 := by
    constructor
    · intro p hp
      rw [List.mem_singleton] at hp
      subst hp
      exact ⟨hW, hH⟩
    · intro p hp
      rw [List.mem_singleton] at hp
      subst hp
      rw [hcell0]
      exact List.mem_singleton.mpr rfl
    · exact List.nodup_singleton 0
    · intro v hv
      rw [List.mem_singleton] at hv
      subst hv
      exact ⟨(0, 0), ⟨hW, hH⟩, hcell0⟩
    · simp
    · intro p hp hmem
      rw [List.mem_singleton] at hmem
      have hp0 : p = (0, 0) :=
        cellIdx_inj mini p (0, 0) hp ⟨hW, hH⟩ (by rw [hmem, hcell0])
      exact Or.inl (hp0 ▸ List.mem_singleton.mpr rfl)
  have hb := bfsAux_uniform mini c hu (mini.width * mini.height) [(0, 0)] [0] 0
    inv0 (by omega)
  obtain ⟨hmono, hlen, hnd, hvv, hcl⟩ := hb
  have h0V : (0 : ℕ) ∈ (bfsAux mini (mini.width * mini.height) [(0, 0)] [0] 0).1 :=
    hmono 0 (List.mem_singleton.mpr rfl)
  have hcover := coverage_of_closed mini
    (bfsAux mini (mini.width * mini.height) [(0, 0)] [0] 0).1 hH
    (by rw [hcell0]; exact h0V) hcl
  have hVlen := visited_complete mini
    (bfsAux mini (mini.width * mini.height) [(0, 0)] [0] 0).1 hW hnd hvv hcover
  have hcnt : (bfsAux mini (mini.width * mini.height) [(0, 0)] [0] 0).2
      = mini.width * mini.height := by
    rw [← hlen]
    exact hVlen
  have hstep1 : ccaFoldStep mini ([], 0, 0) (0, 0)
      = ((bfsAux mini (mini.width * mini.height) [(0, 0)] [0] 0).1, 1,
         (bfsAux mini (mini.width * mini.height) [(0, 0)] [0] 0).2) := by
    dsimp only [ccaFoldStep]
    rw [if_neg]
    · have harg : ([] : List ℕ) ++ [(0, 0).2 * mini.width + (0, 0).1] = [0] := by
        simp
      rw [harg]
      simp
    · intro hc
      rcases hc with hc | hc
      · rw [hu.2 0 0 hW hH] at hc
        exact hu.1 hc
      · simp at hc
  have hallseen : ∀ p ∈ tail, (mini.pix p.1 p.2).a = 0
      ∨ (bfsAux mini (mini.width * mini.height) [(0, 0)] [0] 0).1.contains
          (p.2 * mini.width + p.1) := by
    intro p hp
    right
    obtain ⟨hpx, hpy⟩ := htail p hp
    exact List.elem_iff.mpr (hcover p.1 p.2 hpx hpy)
  show (((List.range mini.height).flatMap
      (fun y => (List.range mini.width).map fun x => (x, y))).foldl
        (ccaFoldStep mini) ([], 0, 0) |>.2.1, _) = _
  rw [hsplit, List.foldl_cons, hstep1, ccaFold_skip _ _ _ _ tail hallseen]
  rw [hcnt]

/-- A perfectly uniform opaque block is never judged meaningful: the color and
variance signals vanish, and when the block is large enough to reach the
connected-component pass, a downsampler output that is itself uniform, opaque
and nonempty produces exactly one component with full coverage. -/
theorem isBlockMeaningful_uniform_gen (ds : Img → ℕ → ℕ → Img) (img : Img)
    (y1 y2 : ℕ) (t : ℚ) (c : Pixel)
    (hw1 : 0 < img.width) (hpos : y1 < y2)
    (hc : ∀ p ∈ blockPixels img y1 y2, p = c) (hca : c.a ≠ 0)
    (hds : min (128 / (img.width : ℚ)) (128 / ((y2 - y1 : ℕ) : ℚ)) < 1 →
      ∃ c', UniformOpaque (ds img y1 y2) c'
        ∧ 0 < (ds img y1 y2).width ∧ 0 < (ds img y1 y2).height) :
    isBlockMeaningful ds img y1 y2 t = false := by
  have hOpq : ∀ p ∈ (blockPixels img y1 y2).filter fun p => p.a ≠ 0, p = c :=
    fun p hp => hc p (List.mem_of_mem_filter hp)
  have hcolors : ((((blockPixels img y1 y2).filter fun p => p.a ≠ 0).map
      fun p => (p.r, p.g, p.b)).dedup.length) ≤ 1 := by
    apply dedup_length_le_one _ (c.r, c.g, c.b)
    intro x hx
    obtain ⟨p, hp, rfl⟩ := List.mem_map.mp hx
    rw [hOpq p hp]
  have hvar : calculateVariance (((blockPixels img y1 y2).filter fun p => p.a ≠ 0).map
      fun p => jsRound (((p.r : ℚ) + p.g + p.b) / 3)) = 0 := by
    apply calculateVariance_const _ (jsRound (((c.r : ℚ) + c.g + c.b) / 3))
    intro x hx
    obtain ⟨p, hp, rfl⟩ := List.mem_map.mp hx
    rw [hOpq p hp]
  by_cases hsc : min (128 / (img.width : ℚ)) (128 / ((y2 - y1 : ℕ) : ℚ)) < 1
  case neg =>
    unfold isBlockMeaningful
    rw [if_neg (by omega), if_neg (by rw [hvar]; norm_num), if_neg hsc]
  case pos =>
    obtain ⟨c', hu', hW', hH'⟩ := hds hsc
    have hcca := cca_uniform (ds img y1 y2) c' hu' hW' hH'
    have hN : 0 < (ds img y1 y2).width * (ds img y1 y2).height :=
      Nat.mul_pos hW' hH'
    unfold isBlockMeaningful
    rw [if_neg (by omega), if_neg (by rw [hvar]; norm_num), if_pos hsc]
    dsimp only
    rw [hcca]
    rw [Bool.or_eq_false_iff]
    constructor
    · exact decide_eq_false (by norm_num)
    · refine decide_eq_false ?_
      rw [not_lt]
      have hone : (((ds img y1 y2).width * (ds img y1 y2).height : ℕ) : ℚ)
          / (((ds img y1 y2).width * (ds img y1 y2).height : ℕ) : ℚ) = 1 := by
        refine div_self ?_
        exact_mod_cast Nat.pos_iff_ne_zero.mp hN
      rw [hone]
      norm_num

/-- **C3.** A content run becomes `pixelContent` iff it is at least
`minHeightRatio * H` tall and `isBlockMeaningful` accepts it; otherwise it
becomes `invalidNoise` — the valid and invalid block boxes are exactly the
accordingly filtered run boxes.  Moreover a run containing more than 20
distinct exact colors among its non-transparent pixels is judged meaningful
regardless of the variance and connected-component signals, and a perfectly
uniform opaque run is judged not meaningful, hence lands in `invalidNoise`
however tall it is — for runs large enough to reach the downsampled
connected-component pass, under the sole assumption that the external
browser downsampler maps the uniform block to a uniform, opaque, nonempty
image. -/
theorem c3_content_classification :
    (∀ (ds : Img → ℕ → ℕ → Img) (img : Img) (t mr : ℚ) (now : ℕ),
      (detectPixelBlocksMeaningful ds img t mr now).blocks.map (·.box)
        = (((runs (isSeparatorRow img t) img.height).filter fun r =>
            !r.isSep && runAccepted
              (fun y1 y2 => isBlockMeaningful ds img y1 y2 t) ((img.height : ℚ) * mr) r).map
          fun r => mkRunBox img.height r.start r.stop)
      ∧ (detectPixelBlocksMeaningful ds img t mr now).invalidBlocks.map (·.box)
        = (((runs (isSeparatorRow img t) img.height).filter fun r =>
            !r.isSep && !runAccepted
              (fun y1 y2 => isBlockMeaningful ds img y1 y2 t) ((img.height : ℚ) * mr) r).map
          fun r => mkRunBox img.height r.start r.stop))
    ∧ (∀ (ds : Img → ℕ → ℕ → Img) (img : Img) (y1 y2 : ℕ) (t : ℚ),
        20 < ((((blockPixels img y1 y2).filter fun p => p.a ≠ 0).map
          fun p => (p.r, p.g, p.b)).dedup.length) →
        isBlockMeaningful ds img y1 y2 t = true)
    ∧ (∀ (ds : Img → ℕ → ℕ → Img) (img : Img) (y1 y2 : ℕ) (t : ℚ) (c : Pixel),
        0 < img.width → y1 < y2 →
        (∀ p ∈ blockPixels img y1 y2, p = c) → c.a ≠ 0 →
        (min (128 / (img.width : ℚ)) (128 / ((y2 - y1 : ℕ) : ℚ)) < 1 →
          ∃ c', UniformOpaque (ds img y1 y2) c'
            ∧ 0 < (ds img y1 y2).width ∧ 0 < (ds img y1 y2).height) →
        isBlockMeaningful ds img y1 y2 t = false) := by
  refine ⟨?_, isBlockMeaningful_many_colors, isBlockMeaningful_uniform_gen⟩
  intro ds img t mr now
  have hp := classifyRuns_parts
    (fun y1 y2 => isBlockMeaningful ds img y1 y2 t) img.height
    ((img.height : ℚ) * mr) now (runs (isSeparatorRow img t) img.height) ([], [], [])
  exact ⟨by simpa using hp.1, by simpa using hp.2.1⟩

theorem c3_content_classification_witness :
    isBlockMeaningful dsEx img21 0 1 (97/100) = true
    ∧ isBlockMeaningful dsEx uniformImg 0 2 (97/100) = false
    ∧ isBlockMeaningful dsU tallUniformImg 0 200 (97/100) = false := by
  refine ⟨?_, ?_, ?_⟩
  · exact c3_content_classification.2.1 dsEx img21 0 1 (97/100) (by decide)
  · exact c3_content_classification.2.2 dsEx uniformImg 0 2 (97/100) ⟨0, 0, 0, 255⟩
      (by decide) (by decide) (by decide) (by decide)
      (fun hsc => absurd hsc (by norm_num [uniformImg]))
  · refine c3_content_classification.2.2 dsU tallUniformImg 0 200 (97/100)
      ⟨0, 0, 0, 255⟩ (by decide) (by decide) ?_ (by decide)
      (fun _ => ⟨⟨0, 0, 0, 255⟩, ⟨by decide, fun x y _ _ => rfl⟩,
        by decide, by decide⟩)
    intro p hp
    simp only [blockPixels, tallUniformImg, List.mem_flatMap, List.mem_map] at hp
    obtain ⟨y, _, x, _, rfl⟩ := hp
    rfl

end Screenshot
